import Mathlib

/-!
Shallow embedding of `src/lib/shaker.js` (mojito-shaker).

The embedding follows the source file closely:
* `Shaker.filterFiles` embeds `Shaker.prototype._filterFiles` (mime-based JS/CSS split);
* `Shaker.queueRollups` embeds `Shaker.prototype._queueRollups` (the bundle planner:
  it returns the queued build tasks together with the metadata tree as mutated by
  planning — the source clones each leaf into the task and truncates the leaf in place);
* `Shaker.runTasks` / `Shaker.runTasksE` embed the per-item handler of the
  `async.queue` in `Shaker.prototype._compileRollups` (on success the produced URL is
  pushed onto the task's sink list; on error the handler throws); the queue's
  concurrent scheduling itself is the external `async` library and is modelled
  from the spec as the transition systems `Shaker.QStep` (successful runs) and
  `Shaker.EStep` (runs with fallible builds);
* `Shaker.rename` embeds `Shaker.prototype._rename` (dev-mode URL rewrite);
* `Shaker.lintFiles` embeds `Shaker.prototype._lintFiles`;
* `Shaker.clientConcatItem` embeds the concat callback of `ClientRollup.prototype.build`.

Sinks are JS array references into the metadata tree; here they are represented as
addresses (`Shaker.Sink`) and the write-through `Shaker.Metadata.pushAt`, following
the leaf structure of the metadata object.  External collaborators (the URL resolver,
the gear output transforms, the csslint collaborator) are opaque function parameters.
-/

namespace Shaker

/-- Update the element at position `n` of a list, leaving the list unchanged when
`n` is out of range (array-index assignment semantics). -/
def updateAt {α : Type} : List α → Nat → (α → α) → List α
  | [], _, _ => []
  | x :: xs, 0, f => f x :: xs
  | x :: xs, n + 1, f => x :: updateAt xs n f

theorem getElem?_updateAt {α : Type} (l : List α) (n m : Nat) (f : α → α) :
    (updateAt l n f)[m]? = if n = m then l[m]?.map f else l[m]? := by
  induction l generalizing n m with
  | nil => simp [updateAt]
  | cons x xs ih =>
    cases n with
    | zero =>
      cases m with
      | zero => simp [updateAt]
      | succ m => simp [updateAt]
    | succ n =>
      cases m with
      | zero => simp [updateAt]
      | succ m => simpa [updateAt] using ih n m

theorem length_updateAt {α : Type} (l : List α) (n : Nat) (f : α → α) :
    (updateAt l n f).length = l.length := by
  induction l generalizing n with
  | nil => simp [updateAt]
  | cons x xs ih =>
    cases n with
    | zero => simp [updateAt]
    | succ n => simp [updateAt, ih]

/-- mime.lookup's extension extraction: the characters after the last `.`, `/` or
`\`, lowercased (the mime module strips `.*[\.\/\\]` greedily and lowercases). -/
def extOf (file : String) : String :=
  String.mk (file.toList.foldl
    (fun acc c => if c = '.' ∨ c = '/' ∨ c = '\\' then [] else acc ++ [c.toLower]) [])

/-- mime.lookup restricted to the content types the shaker compares against
(`application/javascript`, `text/css`, `text/html`); every other extension maps to
the mime default type. -/
def mimeLookup (file : String) : String :=
  match extOf file with
  | "js" => "application/javascript"
  | "css" => "text/css"
  | "html" => "text/html"
  | "png" => "image/png"
  | "gif" => "image/gif"
  | "jpg" => "image/jpeg"
  | _ => "application/octet-stream"

/-- node's `path.basename`: the characters after the last `/`. -/
def basename (p : String) : String :=
  String.mk (p.toList.foldl (fun acc c => if c = '/' then [] else acc ++ [c]) [])

/-- JS `action.replace('*', 'default')` with a string pattern replaces only the
first occurrence. -/
def replaceStarAux : List Char → List Char
  | [] => []
  | c :: rest => if c = '*' then "default".toList ++ rest else c :: replaceStarAux rest

/-- The view name normalization used when building dimension bundle names:
`action.replace('*', 'default')`. -/
def replaceFirstStar (s : String) : String :=
  String.mk (replaceStarAux s.toList)

/-- Result of `Shaker.prototype._filterFiles`: the JS group and the CSS group. -/
structure Filtered where
  js : List String
  css : List String
deriving DecidableEq, Repr

/-- `Shaker.prototype._filterFiles`: walk the file list once, appending each file
whose mime type is `application/javascript` to the js group and each file whose
mime type is `text/css` to the css group; every other file is dropped. -/
def filterFiles (files : List String) : Filtered :=
  files.foldl
    (fun acc file =>
      let type := mimeLookup file
      if type = "application/javascript" then { acc with js := acc.js ++ [file] }
      else if type = "text/css" then { acc with css := acc.css ++ [file] }
      else acc)
    { js := [], css := [] }

theorem filterFiles_foldl (files : List String) (acc : Filtered) :
    files.foldl
      (fun acc file =>
        let type := mimeLookup file
        if type = "application/javascript" then { acc with js := acc.js ++ [file] }
        else if type = "text/css" then { acc with css := acc.css ++ [file] }
        else acc)
      acc
    = { js := acc.js ++ files.filter (fun f => decide (mimeLookup f = "application/javascript")),
        css := acc.css ++ files.filter (fun f => decide (mimeLookup f = "text/css")) } := by
  induction files generalizing acc with
  | nil => simp
  | cons f fs ih =>
    by_cases hjs : mimeLookup f = "application/javascript"
    · simp [List.foldl_cons, hjs, ih, List.filter_cons]
    · by_cases hcss : mimeLookup f = "text/css"
      · simp [List.foldl_cons, hjs, hcss, ih, List.filter_cons]
      · simp [List.foldl_cons, hjs, hcss, ih, List.filter_cons]

/-- The classifier is the pair of order-preserving filters on the mime type. -/
theorem filterFiles_eq (files : List String) :
    filterFiles files
    = { js := files.filter (fun f => decide (mimeLookup f = "application/javascript")),
        css := files.filter (fun f => decide (mimeLookup f = "text/css")) } := by
  simpa using filterFiles_foldl files { js := [], css := [] }

/-- One view entry `metadata.mojits[mojit][action]` (or `metadata.app[action]`):
its `shaken` dimension lists (positional — the dimension keys are only iterated,
never used in names) and its `client` list. -/
structure ViewMeta where
  shaken : List (List String)
  client : List String
deriving DecidableEq, Repr

/-- The metadata tree produced by `ShakerCore.run` as consumed by shaker.js:
`core`, `mojits` (mojit name after action name after view data), `app`, `images`. -/
structure Metadata where
  core : List String
  mojits : List (String × List (String × ViewMeta))
  app : List (String × ViewMeta)
  images : List String
deriving DecidableEq, Repr

/-- Which leaf of a view a sink points at: the `client` list or one `shaken`
dimension list. -/
inductive Leaf
  | client
  | dim (k : Nat)
deriving DecidableEq, Repr

/-- Address of a leaf list inside the metadata tree.  In the source a sink is a
JS array reference (`item.files`); here it is the address of that array. -/
inductive Sink
  | images
  | core
  | mojit (i j : Nat) (leaf : Leaf)
  | app (j : Nat) (leaf : Leaf)
deriving DecidableEq, Repr

/-- Read a view leaf. -/
def ViewMeta.leafAt (v : ViewMeta) : Leaf → Option (List String)
  | .client => some v.client
  | .dim k => v.shaken[k]?

/-- Append a URL to a view leaf (JS `list.push(url)`). -/
def ViewMeta.pushLeaf (v : ViewMeta) (l : Leaf) (u : String) : ViewMeta :=
  match l with
  | .client => { v with client := v.client ++ [u] }
  | .dim k => { v with shaken := updateAt v.shaken k (fun fs => fs ++ [u]) }

/-- Read the leaf list a sink addresses. -/
def Metadata.atSink (md : Metadata) : Sink → Option (List String)
  | .images => some md.images
  | .core => some md.core
  | .mojit i j l =>
      md.mojits[i]?.bind fun mo => mo.2[j]?.bind fun ac => ac.2.leafAt l
  | .app j l => md.app[j]?.bind fun ac => ac.2.leafAt l

/-- `item.files.push(url)`: append a URL to the leaf list a sink addresses. -/
def Metadata.pushAt (md : Metadata) (s : Sink) (u : String) : Metadata :=
  match s with
  | .images => { md with images := md.images ++ [u] }
  | .core => { md with core := md.core ++ [u] }
  | .mojit i j l =>
      { md with
        mojits := updateAt md.mojits i
          (fun mo => (mo.1, updateAt mo.2 j (fun ac => (ac.1, ac.2.pushLeaf l u)))) }
  | .app j l =>
      { md with app := updateAt md.app j (fun ac => (ac.1, ac.2.pushLeaf l u)) }

theorem leafAt_pushLeaf (v : ViewMeta) (l lr : Leaf) (u : String) :
    (v.pushLeaf l u).leafAt lr
      = if l = lr then (v.leafAt lr).map (fun xs => xs ++ [u]) else v.leafAt lr := by
  cases l with
  | client =>
    cases lr with
    | client => simp [ViewMeta.pushLeaf, ViewMeta.leafAt]
    | dim k => simp [ViewMeta.pushLeaf, ViewMeta.leafAt]
  | dim k =>
    cases lr with
    | client => simp [ViewMeta.pushLeaf, ViewMeta.leafAt]
    | dim kr =>
      by_cases hk : k = kr
      · subst hk
        simp [ViewMeta.pushLeaf, ViewMeta.leafAt, getElem?_updateAt]
      · simp [ViewMeta.pushLeaf, ViewMeta.leafAt, getElem?_updateAt, hk]

/-- A push through a sink appends to exactly the addressed leaf and leaves every
other leaf unchanged. -/
theorem atSink_pushAt (md : Metadata) (s sr : Sink) (u : String) :
    (md.pushAt s u).atSink sr
      = if s = sr then (md.atSink sr).map (fun xs => xs ++ [u]) else md.atSink sr := by
  cases s with
  | images =>
    cases sr <;> simp [Metadata.pushAt, Metadata.atSink]
  | core =>
    cases sr <;> simp [Metadata.pushAt, Metadata.atSink]
  | mojit i j l =>
    cases sr with
    | images => simp [Metadata.pushAt, Metadata.atSink]
    | core => simp [Metadata.pushAt, Metadata.atSink]
    | app jr lr => simp [Metadata.pushAt, Metadata.atSink]
    | mojit ir jr lr =>
      by_cases hi : i = ir
      · subst hi
        rw [Metadata.pushAt, Metadata.atSink, Metadata.atSink, getElem?_updateAt]
        rw [if_pos rfl]
        cases hmo : md.mojits[i]? with
        | none => simp [Sink.mojit.injEq]
        | some mo =>
          simp only [Option.map_some', Option.some_bind]
          rw [getElem?_updateAt]
          by_cases hj : j = jr
          · subst hj
            rw [if_pos rfl]
            cases hac : mo.2[j]? with
            | none => simp [Sink.mojit.injEq]
            | some ac =>
              simp only [Option.map_some', Option.some_bind, leafAt_pushLeaf]
              by_cases hl : l = lr
              · subst hl; simp [leafAt_pushLeaf]
              · simp [leafAt_pushLeaf, hl, Sink.mojit.injEq]
          · simp [hj, Sink.mojit.injEq]
      · rw [Metadata.pushAt, Metadata.atSink, Metadata.atSink, getElem?_updateAt]
        simp [hi, Sink.mojit.injEq]
  | app j l =>
    cases sr with
    | images => simp [Metadata.pushAt, Metadata.atSink]
    | core => simp [Metadata.pushAt, Metadata.atSink]
    | mojit ir jr lr => simp [Metadata.pushAt, Metadata.atSink]
    | app jr lr =>
      by_cases hj : j = jr
      · subst hj
        rw [Metadata.pushAt, Metadata.atSink, Metadata.atSink, getElem?_updateAt]
        rw [if_pos rfl]
        cases hac : md.app[j]? with
        | none => simp [Sink.app.injEq]
        | some ac =>
          simp only [Option.map_some', Option.some_bind, leafAt_pushLeaf]
          by_cases hl : l = lr
          · subst hl; simp [leafAt_pushLeaf]
          · simp [leafAt_pushLeaf, hl, Sink.app.injEq]
      · rw [Metadata.pushAt, Metadata.atSink, Metadata.atSink, getElem?_updateAt]
        simp [hj, Sink.app.injEq]

/-- `Shaker.DEFAULT_TASK = 'raw'`: the reserved task name selecting dev mode. -/
def DEFAULT_TASK : String := "raw"

/-- `Shaker.ASSETS_DIR = 'assets/'`. -/
def ASSETS_DIR : String := "assets/"

/-- `Shaker.COMPILED_DIR = Shaker.ASSETS_DIR + 'compiled/'`. -/
def COMPILED_DIR : String := ASSETS_DIR ++ "compiled/"

/-- `Shaker.IMAGES_DIR = Shaker.ASSETS_DIR + 'images/'`. -/
def IMAGES_DIR : String := ASSETS_DIR ++ "images/"

/-- The builder object held by a queue item: `new Image(name, file)`,
`new Rollup(name, files)` or `new ClientRollup(name, base, files)` (the `base`
argument only feeds logging and is omitted).  `name` is the bundle name template;
`files` is the input list captured at planning time (`.slice()` clone). -/
inductive Builder
  | image (name file : String)
  | rollup (name : String) (files : List String)
  | clientRollup (name : String) (files : List String)
deriving DecidableEq, Repr

/-- A queued build item `{object: builder, files: sinkReference}`. -/
structure Task where
  object : Builder
  sink : Sink
deriving DecidableEq, Repr

/-- Image deployment part of `_queueRollups`: one `Image` task per entry of
`metadata.images`, every task sharing the `images` list as its sink. -/
def imageTasks (md : Metadata) : List Task :=
  md.images.map fun image =>
    { object := .image (IMAGES_DIR ++ basename image) image, sink := .images }

/-- The per-dimension loop of `_queueRollups` (`for (dim in files)`), starting at
dimension index `k`: a non-empty dimension list is classified and yields a JS
rollup task when the JS group is non-empty and a CSS rollup task when the CSS
group is non-empty, both with the dimension list as sink. -/
def shakenTasksFrom (cdir name : String) (mk : Nat → Sink) :
    Nat → List (List String) → List Task
  | _, [] => []
  | k, files :: rest =>
    (if files.length ≠ 0 then
      (if (filterFiles files).js.length ≠ 0 then
        [{ object := .rollup (cdir ++ name ++ ".js") (filterFiles files).js, sink := mk k }]
      else [])
      ++
      (if (filterFiles files).css.length ≠ 0 then
        [{ object := .rollup (cdir ++ name ++ ".css") (filterFiles files).css, sink := mk k }]
      else [])
    else [])
    ++ shakenTasksFrom cdir name mk (k + 1) rest

/-- The body of the per-action loop for one mojit view: the client rollup (if the
client list is non-empty) followed by the dimension rollups. -/
def mojitViewTasks (cdir mojitName : String) (i j : Nat) (action : String)
    (v : ViewMeta) : List Task :=
  (if v.client.length ≠ 0 then
    [{ object := .clientRollup (cdir ++ "client_" ++ mojitName ++ "_{checksum}.js") v.client,
       sink := .mojit i j .client }]
  else [])
  ++ shakenTasksFrom cdir (mojitName ++ "_" ++ replaceFirstStar action ++ "_{checksum}")
      (fun k => .mojit i j (.dim k)) 0 v.shaken

/-- `for (action in metadata.mojits[mojit])`, starting at action index `j`. -/
def actionsTasksFrom (cdir mojitName : String) (i : Nat) :
    Nat → List (String × ViewMeta) → List Task
  | _, [] => []
  | j, (action, v) :: rest =>
      mojitViewTasks cdir mojitName i j action v
      ++ actionsTasksFrom cdir mojitName i (j + 1) rest

/-- `for (mojit in metadata.mojits)`, starting at mojit index `i`. -/
def mojitsTasksFrom (cdir : String) :
    Nat → List (String × List (String × ViewMeta)) → List Task
  | _, [] => []
  | i, (mojitName, acts) :: rest =>
      actionsTasksFrom cdir mojitName i 0 acts ++ mojitsTasksFrom cdir (i + 1) rest

/-- The body of the app-level per-action loop: the `appclient_` client rollup (if
non-empty; note the raw action name, no `*` normalization here) followed by the
`app_` dimension rollups. -/
def appViewTasks (cdir : String) (j : Nat) (action : String) (v : ViewMeta) :
    List Task :=
  (if v.client.length ≠ 0 then
    [{ object := .clientRollup (cdir ++ "appclient_" ++ action ++ "_{checksum}.js") v.client,
       sink := .app j .client }]
  else [])
  ++ shakenTasksFrom cdir ("app_" ++ replaceFirstStar action ++ "_{checksum}")
      (fun k => .app j (.dim k)) 0 v.shaken

/-- `for (action in metadata.app)`, starting at action index `j`. -/
def appTasksFrom (cdir : String) : Nat → List (String × ViewMeta) → List Task
  | _, [] => []
  | j, (action, v) :: rest => appViewTasks cdir j action v ++ appTasksFrom cdir (j + 1) rest

/-- The in-place truncation `list.length = 0`, guarded as in the source
(`if (list.length) { ...; list.length = 0 }`). -/
def clearList (files : List String) : List String :=
  if files.length ≠ 0 then [] else files

/-- Planning truncates the client list and every non-empty dimension list of a
view (inside the same guards that queue its tasks). -/
def clearView (v : ViewMeta) : ViewMeta :=
  { shaken := v.shaken.map clearList, client := clearList v.client }

/-- The metadata tree as left behind by `_queueRollups`: `core` is truncated
unconditionally, `images` is truncated when image deployment is on, and every
mojit/app view is cleared leaf-wise. -/
def clearMeta (imagesEnabled : Bool) (md : Metadata) : Metadata :=
  { core := [],
    mojits := md.mojits.map fun mo => (mo.1, mo.2.map fun ac => (ac.1, clearView ac.2)),
    app := md.app.map fun ac => (ac.1, clearView ac.2),
    images := if imagesEnabled then [] else md.images }

/-- `Shaker.prototype._queueRollups`: returns the queued tasks in push order
(images, then the unconditional core rollup, then mojits, then app) and the
metadata tree as mutated by planning.  Every task input list is a `.slice()`
clone taken before the corresponding leaf is truncated, so the decomposition into
tasks-over-the-original-tree plus `clearMeta` is exact. -/
def queueRollups (imagesEnabled : Bool) (cdir : String) (md : Metadata) :
    List Task × Metadata :=
  ((if imagesEnabled then imageTasks md else [])
    ++ [{ object := .rollup (cdir ++ "core_{checksum}.js") md.core, sink := .core }]
    ++ mojitsTasksFrom cdir 0 md.mojits
    ++ appTasksFrom cdir 0 md.app,
  clearMeta imagesEnabled md)

/-- Successful execution of the queued tasks: each completed build pushes its
produced URL onto its sink (`item.files.push(url)`).  The fold fixes one
completion order (queue order); the properties proved below do not depend on it. -/
def runTasks (produce : Task → String) (md : Metadata) (ts : List Task) : Metadata :=
  ts.foldl (fun m t => m.pushAt t.sink (produce t)) md

/-- A whole successful build-mode run (`_compileRollups` through queue drain):
plan, then execute every task. -/
def compileRollups (imagesEnabled : Bool) (cdir : String) (produce : Task → String)
    (md : Metadata) : Metadata :=
  runTasks produce (queueRollups imagesEnabled cdir md).2 (queueRollups imagesEnabled cdir md).1

/-- Execution with fallible builds, one linearization: a failed build makes the
per-item handler throw the error (`throw err` — the source comment: `No way to
kill queue so throw exception (async bug)`) and the error escapes.  This
function serializes the queue, so it is relied on only where the schedule is
irrelevant: the fully successful run (drain) and single-task plans.  The general
error path of the concurrent queue — siblings already in flight finish and their
writes land — is modelled by `EStep` below. -/
def runTasksE (produce : Task → Except String String) (md : Metadata) :
    List Task → Except String Metadata
  | [] => .ok md
  | t :: ts =>
    match produce t with
    | .error err => .error err
    | .ok url => runTasksE produce (md.pushAt t.sink url) ts

/-- How a run terminates, as observed by the caller of `Shaker.run`:
the run-level callback is invoked with the metadata (`callbackOk`), the run-level
callback is invoked with an error (`callbackErr` — only the missing-manifest
check does this), or an exception escapes (`thrown`). -/
inductive Outcome
  | callbackOk (md : Metadata)
  | callbackErr (err : String)
  | thrown (err : String)
deriving DecidableEq, Repr

/-- `Shaker.prototype._compileRollups`: plan, run the queue; on drain write the
metadata file and invoke the callback with the mutated metadata; on a build error
the handler throws, the metadata file is not written and the callback is never
invoked.  The boolean records whether `_writeMeta` ran. -/
def compileRollupsRun (imagesEnabled : Bool) (cdir : String)
    (produce : Task → Except String String) (md : Metadata) : Outcome × Bool :=
  match runTasksE produce (queueRollups imagesEnabled cdir md).2
      (queueRollups imagesEnabled cdir md).1 with
  | .ok final => (.callbackOk final, true)
  | .error err => (.thrown err, false)

/-- Elementwise URL rewrite of one list (`list[item] = this._core.getURL(list[item])`
for each index). -/
def renameList (getURL : String → String) : List String → List String
  | [] => []
  | f :: rest => getURL f :: renameList getURL rest

/-- `_rename` on one view: every dimension list and the client list are rewritten
elementwise. -/
def renameView (getURL : String → String) (v : ViewMeta) : ViewMeta :=
  { shaken := v.shaken.map (renameList getURL), client := renameList getURL v.client }

/-- `Shaker.prototype._rename`: rewrites every mojit view, every app view and
`core` elementwise through `getURL`; `metadata.images` is never visited. -/
def rename (getURL : String → String) (md : Metadata) : Metadata :=
  { core := renameList getURL md.core,
    mojits := md.mojits.map fun mo => (mo.1, mo.2.map fun ac => (ac.1, renameView getURL ac.2)),
    app := md.app.map fun ac => (ac.1, renameView getURL ac.2),
    images := md.images }

/-- `Shaker.prototype._runTask`: the reserved default task selects the dev-mode
rewrite (rename, write metadata, invoke callback); any other task runs the
build-mode pipeline. -/
def runTask (task : String) (getURL : String → String) (imagesEnabled : Bool)
    (cdir : String) (produce : Task → Except String String) (md : Metadata) :
    Outcome × Bool :=
  if task = DEFAULT_TASK then (.callbackOk (rename getURL md), true)
  else compileRollupsRun imagesEnabled cdir produce md

/-- How `_lintFiles` leaves the pipeline: it invoked its continuation
(`proceeded`), it logged the lint errors and returned without invoking it
(`aborted`), or — when the classified CSS group is empty — it fell through the
`if (filtered.css.length > 0)` guard and nothing was invoked at all (`stalled`). -/
inductive LintOutcome
  | proceeded
  | aborted
  | stalled
deriving DecidableEq, Repr

/-- `Shaker.prototype._lintFiles`: classify the discovered files; when the CSS
group is non-empty run csslint over it (the external linter is the opaque
`issues` collaborator) — any reported issue aborts, otherwise the continuation
runs; when the CSS group is empty the function returns without ever invoking the
continuation. -/
def lintFiles (issues : String → List String) (files : List String) : LintOutcome :=
  let filtered := filterFiles files
  if filtered.css.length > 0 then
    if filtered.css.any (fun f => !(issues f).isEmpty) then .aborted else .proceeded
  else .stalled

/-- The lint gate of `Shaker.prototype.run`: with linting disabled the task runs
directly; with linting enabled the task runs only if `_lintFiles` invokes its
continuation. -/
def runLintGate (lint : Bool) (issues : String → List String) (files : List String) :
    LintOutcome :=
  if lint then lintFiles issues files else .proceeded

/-- The options object built by the queue handler in `_compileRollups`:
`{task, minify, strip, config}`.  The source object has no `bundleViews` key, and
a JS read of a missing key yields `undefined`, which is falsy — modelled as the
field being `false`.  The opaque `config` pass-through is not needed by any claim
and is omitted. -/
structure BuildOptions where
  task : String
  minify : Bool
  strip : Option String
  bundleViews : Bool
deriving DecidableEq, Repr

/-- The literal options value `_compileRollups` hands to every `build`. -/
def buildItemOptions (task : String) (minify : Bool) (strip : Option String) :
    BuildOptions :=
  { task := task, minify := minify, strip := strip, bundleViews := false }

/-- The concat callback of `ClientRollup.prototype.build` applied to one input
blob: an HTML input is replaced by a client-registration snippet when
`options.bundleViews` is truthy and by the empty string otherwise; non-HTML
inputs pass through.  The snippet construction (the regex parse of the filename
and the `YUI.add` wrapper) is kept opaque as `snippet` since no run reaches it. -/
def clientConcatItem (snippet : String → String → String) (bundleViews : Bool)
    (filename result : String) : String :=
  if mimeLookup filename = "text/html" then
    if bundleViews then snippet filename result else ""
  else result

theorem clearList_eq (fs : List String) : clearList fs = [] := by
  rw [clearList]
  split
  · rfl
  · next h => simpa using h

/-- Running a task list appends, to every leaf, exactly the URLs of the tasks
whose sink addresses that leaf, in queue order. -/
theorem runTasks_atSink (produce : Task → String) (ts : List Task) (md : Metadata)
    (s : Sink) :
    (runTasks produce md ts).atSink s
      = (md.atSink s).map
          (fun xs => xs ++ (ts.filter (fun t => decide (t.sink = s))).map produce) := by
  induction ts generalizing md with
  | nil => cases h : md.atSink s <;> simp [runTasks, h]
  | cons t ts ih =>
    have h1 : runTasks produce md (t :: ts)
        = runTasks produce (md.pushAt t.sink (produce t)) ts := rfl
    rw [h1, ih, atSink_pushAt]
    by_cases hts : t.sink = s
    · rw [if_pos hts]
      cases h : md.atSink s <;>
        simp [List.filter_cons, hts, Option.map_map, Function.comp]
    · rw [if_neg hts]
      simp [List.filter_cons, hts]

theorem clearMeta_atSink_images (e : Bool) (md : Metadata) :
    (clearMeta e md).atSink .images = some (if e then [] else md.images) := by
  simp [clearMeta, Metadata.atSink]

theorem clearMeta_atSink_core (e : Bool) (md : Metadata) :
    (clearMeta e md).atSink .core = some [] := by
  simp [clearMeta, Metadata.atSink]

theorem leafAt_clearView (v : ViewMeta) (lf : Leaf) :
    (clearView v).leafAt lf = (v.leafAt lf).map fun _ => [] := by
  cases lf with
  | client => simp [clearView, ViewMeta.leafAt, clearList_eq]
  | dim k =>
    rw [clearView]
    show (v.shaken.map clearList)[k]? = _
    rw [List.getElem?_map]
    cases h : v.shaken[k]? with
    | none => simp [ViewMeta.leafAt, h]
    | some fs => simp [ViewMeta.leafAt, h, clearList_eq]

theorem clearMeta_atSink_mojit (e : Bool) (md : Metadata) (i j : Nat) (lf : Leaf) :
    (clearMeta e md).atSink (.mojit i j lf)
      = (md.atSink (.mojit i j lf)).map fun _ => [] := by
  rw [clearMeta]
  show ((md.mojits.map fun mo => (mo.1, mo.2.map fun ac => (ac.1, clearView ac.2)))[i]?.bind
      fun mo => mo.2[j]?.bind fun ac => ac.2.leafAt lf) = _
  rw [List.getElem?_map]
  cases hmo : md.mojits[i]? with
  | none => simp [Metadata.atSink, hmo]
  | some mo =>
    simp only [Metadata.atSink, hmo, Option.map_some', Option.some_bind]
    rw [List.getElem?_map]
    cases hac : mo.2[j]? with
    | none => simp
    | some ac =>
      simp only [Option.map_some', Option.some_bind, leafAt_clearView]

theorem clearMeta_atSink_app (e : Bool) (md : Metadata) (j : Nat) (lf : Leaf) :
    (clearMeta e md).atSink (.app j lf)
      = (md.atSink (.app j lf)).map fun _ => [] := by
  rw [clearMeta]
  show ((md.app.map fun ac => (ac.1, clearView ac.2))[j]?.bind
      fun ac => ac.2.leafAt lf) = _
  rw [List.getElem?_map]
  cases hac : md.app[j]? with
  | none => simp [Metadata.atSink, hac]
  | some ac =>
    simp only [Metadata.atSink, hac, Option.map_some', Option.some_bind, leafAt_clearView]

/-- Inversion for the per-dimension loop: every queued dimension task comes from
a non-empty dimension list at a definite index and carries one of the two
classified groups as its (non-empty) input. -/
theorem mem_shakenTasksFrom {cdir name : String} {mk : Nat → Sink} :
    ∀ {k : Nat} {fs : List (List String)} {t : Task},
      t ∈ shakenTasksFrom cdir name mk k fs →
      ∃ K files, fs[K]? = some files ∧ files ≠ [] ∧ t.sink = mk (k + K) ∧
        ((t.object = .rollup (cdir ++ name ++ ".js") (filterFiles files).js ∧
            (filterFiles files).js ≠ []) ∨
          (t.object = .rollup (cdir ++ name ++ ".css") (filterFiles files).css ∧
            (filterFiles files).css ≠ [])) := by
  intro k fs
  induction fs generalizing k with
  | nil => intro t ht; simp [shakenTasksFrom] at ht
  | cons files rest ih =>
    intro t ht
    rw [shakenTasksFrom] at ht
    rcases List.mem_append.mp ht with hhead | htail
    · refine ⟨0, files, by simp, ?_, ?_⟩
      · by_cases hne : files.length ≠ 0
        · simpa using hne
        · rw [if_neg hne] at hhead; simp at hhead
      · by_cases hne : files.length ≠ 0
        · rw [if_pos hne] at hhead
          rcases List.mem_append.mp hhead with hjs | hcss
          · by_cases hj : (filterFiles files).js.length ≠ 0
            · rw [if_pos hj] at hjs
              simp only [List.mem_singleton] at hjs
              subst hjs
              exact ⟨rfl, Or.inl ⟨rfl, by simpa using hj⟩⟩
            · rw [if_neg hj] at hjs; simp at hjs
          · by_cases hc : (filterFiles files).css.length ≠ 0
            · rw [if_pos hc] at hcss
              simp only [List.mem_singleton] at hcss
              subst hcss
              exact ⟨rfl, Or.inr ⟨rfl, by simpa using hc⟩⟩
            · rw [if_neg hc] at hcss; simp at hcss
        · rw [if_neg hne] at hhead; simp at hhead
    · rcases ih htail with ⟨K, fl, hK, hne, hsink, hobj⟩
      exact ⟨K + 1, fl, by simpa using hK, hne,
        by simpa [Nat.add_assoc, Nat.add_comm 1 K] using hsink, hobj⟩

/-- Inversion for one mojit view's tasks. -/
theorem mem_mojitViewTasks {cdir mn : String} {i j : Nat} {action : String}
    {v : ViewMeta} {t : Task} (ht : t ∈ mojitViewTasks cdir mn i j action v) :
    (t = { object := .clientRollup (cdir ++ "client_" ++ mn ++ "_{checksum}.js") v.client,
           sink := .mojit i j .client } ∧ v.client ≠ [])
    ∨ ∃ K files, v.shaken[K]? = some files ∧ files ≠ [] ∧ t.sink = .mojit i j (.dim K) ∧
        ((t.object = .rollup (cdir ++ (mn ++ "_" ++ replaceFirstStar action ++ "_{checksum}") ++ ".js")
              (filterFiles files).js ∧ (filterFiles files).js ≠ []) ∨
          (t.object = .rollup (cdir ++ (mn ++ "_" ++ replaceFirstStar action ++ "_{checksum}") ++ ".css")
              (filterFiles files).css ∧ (filterFiles files).css ≠ [])) := by
  rw [mojitViewTasks] at ht
  rcases List.mem_append.mp ht with hc | hs
  · left
    by_cases hne : v.client.length ≠ 0
    · rw [if_pos hne] at hc
      simp only [List.mem_singleton] at hc
      exact ⟨hc, by simpa using hne⟩
    · rw [if_neg hne] at hc; simp at hc
  · right
    rcases mem_shakenTasksFrom hs with ⟨K, files, hK, hne, hsink, hobj⟩
    exact ⟨K, files, hK, hne, by simpa using hsink, hobj⟩

/-- Inversion for the app-level view tasks. -/
theorem mem_appViewTasks {cdir : String} {j : Nat} {action : String}
    {v : ViewMeta} {t : Task} (ht : t ∈ appViewTasks cdir j action v) :
    (t = { object := .clientRollup (cdir ++ "appclient_" ++ action ++ "_{checksum}.js") v.client,
           sink := .app j .client } ∧ v.client ≠ [])
    ∨ ∃ K files, v.shaken[K]? = some files ∧ files ≠ [] ∧ t.sink = .app j (.dim K) ∧
        ((t.object = .rollup (cdir ++ ("app_" ++ replaceFirstStar action ++ "_{checksum}") ++ ".js")
              (filterFiles files).js ∧ (filterFiles files).js ≠ []) ∨
          (t.object = .rollup (cdir ++ ("app_" ++ replaceFirstStar action ++ "_{checksum}") ++ ".css")
              (filterFiles files).css ∧ (filterFiles files).css ≠ [])) := by
  rw [appViewTasks] at ht
  rcases List.mem_append.mp ht with hc | hs
  · left
    by_cases hne : v.client.length ≠ 0
    · rw [if_pos hne] at hc
      simp only [List.mem_singleton] at hc
      exact ⟨hc, by simpa using hne⟩
    · rw [if_neg hne] at hc; simp at hc
  · right
    rcases mem_shakenTasksFrom hs with ⟨K, files, hK, hne, hsink, hobj⟩
    exact ⟨K, files, hK, hne, by simpa using hsink, hobj⟩

/-- Inversion for the per-action loop. -/
theorem mem_actionsTasksFrom {cdir mn : String} {i : Nat} :
    ∀ {j : Nat} {as : List (String × ViewMeta)} {t : Task},
      t ∈ actionsTasksFrom cdir mn i j as →
      ∃ J action v, as[J]? = some (action, v) ∧
        t ∈ mojitViewTasks cdir mn i (j + J) action v := by
  intro j as
  induction as generalizing j with
  | nil => intro t ht; simp [actionsTasksFrom] at ht
  | cons hd rest ih =>
    intro t ht
    rw [actionsTasksFrom] at ht
    rcases List.mem_append.mp ht with hh | htail
    · exact ⟨0, hd.1, hd.2, by simp, by simpa using hh⟩
    · rcases ih htail with ⟨J, action, v, hJ, hmem⟩
      exact ⟨J + 1, action, v, by simpa using hJ,
        by simpa [Nat.add_assoc, Nat.add_comm 1 J] using hmem⟩

/-- Inversion for the per-mojit loop. -/
theorem mem_mojitsTasksFrom {cdir : String} :
    ∀ {i : Nat} {ms : List (String × List (String × ViewMeta))} {t : Task},
      t ∈ mojitsTasksFrom cdir i ms →
      ∃ I mn acts, ms[I]? = some (mn, acts) ∧
        t ∈ actionsTasksFrom cdir mn (i + I) 0 acts := by
  intro i ms
  induction ms generalizing i with
  | nil => intro t ht; simp [mojitsTasksFrom] at ht
  | cons hd rest ih =>
    intro t ht
    rw [mojitsTasksFrom] at ht
    rcases List.mem_append.mp ht with hh | htail
    · exact ⟨0, hd.1, hd.2, by simp, by simpa using hh⟩
    · rcases ih htail with ⟨I, mn, acts, hI, hmem⟩
      exact ⟨I + 1, mn, acts, by simpa using hI,
        by simpa [Nat.add_assoc, Nat.add_comm 1 I] using hmem⟩

/-- Inversion for the app-level per-action loop. -/
theorem mem_appTasksFrom {cdir : String} :
    ∀ {j : Nat} {as : List (String × ViewMeta)} {t : Task},
      t ∈ appTasksFrom cdir j as →
      ∃ J action v, as[J]? = some (action, v) ∧
        t ∈ appViewTasks cdir (j + J) action v := by
  intro j as
  induction as generalizing j with
  | nil => intro t ht; simp [appTasksFrom] at ht
  | cons hd rest ih =>
    intro t ht
    rw [appTasksFrom] at ht
    rcases List.mem_append.mp ht with hh | htail
    · exact ⟨0, hd.1, hd.2, by simp, by simpa using hh⟩
    · rcases ih htail with ⟨J, action, v, hJ, hmem⟩
      exact ⟨J + 1, action, v, by simpa using hJ,
        by simpa [Nat.add_assoc, Nat.add_comm 1 J] using hmem⟩

/-- Every image task's sink is the images list. -/
theorem sink_of_mem_imageTasks {md : Metadata} {t : Task} (ht : t ∈ imageTasks md) :
    t.sink = .images := by
  rw [imageTasks] at ht
  rcases List.mem_map.mp ht with ⟨img, _, rfl⟩
  rfl

/-- Every mojit task's sink is a mojit leaf with first index at least `i`. -/
theorem sink_shape_mojitsTasksFrom {cdir : String} {i : Nat}
    {ms : List (String × List (String × ViewMeta))} {t : Task}
    (ht : t ∈ mojitsTasksFrom cdir i ms) :
    ∃ I J lf, i ≤ I ∧ t.sink = .mojit I J lf := by
  rcases mem_mojitsTasksFrom ht with ⟨I, mn, acts, _, hmem⟩
  rcases mem_actionsTasksFrom hmem with ⟨J, action, v, _, hview⟩
  rcases mem_mojitViewTasks hview with ⟨rfl, _⟩ | ⟨K, files, _, _, hsink, _⟩
  · exact ⟨i + I, 0 + J, .client, Nat.le_add_right i I, rfl⟩
  · exact ⟨i + I, 0 + J, .dim K, Nat.le_add_right i I, hsink⟩

/-- Every app task's sink is an app leaf with index at least `j`. -/
theorem sink_shape_appTasksFrom {cdir : String} {j : Nat}
    {as : List (String × ViewMeta)} {t : Task}
    (ht : t ∈ appTasksFrom cdir j as) :
    ∃ J lf, j ≤ J ∧ t.sink = .app J lf := by
  rcases mem_appTasksFrom ht with ⟨J, action, v, _, hview⟩
  rcases mem_appViewTasks hview with ⟨rfl, _⟩ | ⟨K, files, _, _, hsink, _⟩
  · exact ⟨j + J, .client, Nat.le_add_right j J, rfl⟩
  · exact ⟨j + J, .dim K, Nat.le_add_right j J, hsink⟩

/-- The dimension tasks addressed to dimension `k + K` are exactly those queued
from the `K`-th dimension list. -/
theorem filter_shakenTasksFrom (cdir name : String) (mk : Nat → Sink)
    (hinj : ∀ a b, mk a = mk b → a = b) :
    ∀ (k K : Nat) (fs : List (List String)),
      (shakenTasksFrom cdir name mk k fs).filter (fun t => decide (t.sink = mk (k + K)))
      = match fs[K]? with
        | none => []
        | some files =>
          if files.length ≠ 0 then
            (if (filterFiles files).js.length ≠ 0 then
              [{ object := .rollup (cdir ++ name ++ ".js") (filterFiles files).js,
                 sink := mk (k + K) }]
            else [])
            ++
            (if (filterFiles files).css.length ≠ 0 then
              [{ object := .rollup (cdir ++ name ++ ".css") (filterFiles files).css,
                 sink := mk (k + K) }]
            else [])
          else []
  | k, K, [] => by simp [shakenTasksFrom]
  | k, 0, files :: rest => by
    rw [shakenTasksFrom, List.filter_append]
    have htail : (shakenTasksFrom cdir name mk (k + 1) rest).filter
        (fun t => decide (t.sink = mk (k + 0))) = [] := by
      rw [List.filter_eq_nil_iff]
      intro t ht
      rcases mem_shakenTasksFrom ht with ⟨K2, files2, _, _, hsink, _⟩
      simp only [decide_eq_true_eq, hsink]
      intro hEq
      have := hinj _ _ hEq
      omega
    rw [htail, List.append_nil]
    show List.filter _ _ = _
    by_cases hf : files.length ≠ 0
    · rw [if_pos hf]
      by_cases hjs : (filterFiles files).js.length ≠ 0
      · by_cases hcss : (filterFiles files).css.length ≠ 0
        · simp [hf, hjs, hcss, List.filter_append]
        · simp [hf, hjs, hcss, List.filter_append]
      · by_cases hcss : (filterFiles files).css.length ≠ 0
        · simp [hf, hjs, hcss, List.filter_append]
        · simp [hf, hjs, hcss, List.filter_append]
    · rw [if_neg hf]
      simp [hf]
  | k, K + 1, files :: rest => by
    rw [shakenTasksFrom, List.filter_append]
    have hkne : mk k ≠ mk (k + (K + 1)) := by
      intro hEq
      have := hinj _ _ hEq
      omega
    have hhead : (if files.length ≠ 0 then
        (if (filterFiles files).js.length ≠ 0 then
          [({ object := Builder.rollup (cdir ++ name ++ ".js") (filterFiles files).js,
              sink := mk k } : Task)]
        else [])
        ++
        (if (filterFiles files).css.length ≠ 0 then
          [({ object := Builder.rollup (cdir ++ name ++ ".css") (filterFiles files).css,
              sink := mk k } : Task)]
        else [])
      else ([] : List Task)).filter (fun t => decide (t.sink = mk (k + (K + 1)))) = [] := by
      rw [List.filter_eq_nil_iff]
      intro t ht
      by_cases hf : files.length ≠ 0
      · rw [if_pos hf] at ht
        rcases List.mem_append.mp ht with hjs | hcss
        · by_cases hj : (filterFiles files).js.length ≠ 0
          · rw [if_pos hj] at hjs
            simp only [List.mem_singleton] at hjs
            subst hjs
            simpa using hkne
          · rw [if_neg hj] at hjs; simp at hjs
        · by_cases hc : (filterFiles files).css.length ≠ 0
          · rw [if_pos hc] at hcss
            simp only [List.mem_singleton] at hcss
            subst hcss
            simpa using hkne
          · rw [if_neg hc] at hcss; simp at hcss
      · rw [if_neg hf] at ht; simp at ht
    rw [hhead]
    have harith : k + 1 + K = k + (K + 1) := by omega
    have := filter_shakenTasksFrom cdir name mk hinj (k + 1) K rest
    rw [harith] at this
    rw [List.nil_append, this]
    simp

/-- The mojit-view tasks addressed to the client leaf are exactly the client
rollup, present iff the client list is non-empty. -/
theorem filter_mojitViewTasks_client (cdir mn action : String) (i j : Nat) (v : ViewMeta) :
    (mojitViewTasks cdir mn i j action v).filter
        (fun t => decide (t.sink = .mojit i j .client))
    = if v.client.length ≠ 0 then
        [{ object := .clientRollup (cdir ++ "client_" ++ mn ++ "_{checksum}.js") v.client,
           sink := .mojit i j .client }]
      else [] := by
  rw [mojitViewTasks, List.filter_append]
  have hsh : (shakenTasksFrom cdir (mn ++ "_" ++ replaceFirstStar action ++ "_{checksum}")
      (fun k => .mojit i j (.dim k)) 0 v.shaken).filter
      (fun t => decide (t.sink = .mojit i j .client)) = [] := by
    rw [List.filter_eq_nil_iff]
    intro t ht
    rcases mem_shakenTasksFrom ht with ⟨K, files, _, _, hsink, _⟩
    simp [hsink]
  rw [hsh, List.append_nil]
  by_cases hc : v.client.length ≠ 0
  · rw [if_pos hc]; simp
  · rw [if_neg hc]; simp

/-- The mojit-view tasks addressed to dimension `K` are exactly those of the
`K`-th dimension list. -/
theorem filter_mojitViewTasks_dim (cdir mn action : String) (i j K : Nat) (v : ViewMeta) :
    (mojitViewTasks cdir mn i j action v).filter
        (fun t => decide (t.sink = .mojit i j (.dim K)))
    = match v.shaken[K]? with
      | none => []
      | some files =>
        if files.length ≠ 0 then
          (if (filterFiles files).js.length ≠ 0 then
            [{ object := .rollup (cdir ++ (mn ++ "_" ++ replaceFirstStar action ++ "_{checksum}") ++ ".js")
                  (filterFiles files).js, sink := .mojit i j (.dim K) }]
          else [])
          ++
          (if (filterFiles files).css.length ≠ 0 then
            [{ object := .rollup (cdir ++ (mn ++ "_" ++ replaceFirstStar action ++ "_{checksum}") ++ ".css")
                  (filterFiles files).css, sink := .mojit i j (.dim K) }]
          else [])
        else [] := by
  rw [mojitViewTasks, List.filter_append]
  have hcl : (if v.client.length ≠ 0 then
      [({ object := .clientRollup (cdir ++ "client_" ++ mn ++ "_{checksum}.js") v.client,
          sink := .mojit i j .client } : Task)]
    else ([] : List Task)).filter (fun t => decide (t.sink = .mojit i j (.dim K))) = [] := by
    by_cases hc : v.client.length ≠ 0
    · rw [if_pos hc]; simp
    · rw [if_neg hc]; simp
  rw [hcl, List.nil_append]
  have hinj : ∀ a b : Nat, (Sink.mojit i j (.dim a)) = (Sink.mojit i j (.dim b)) → a = b := by
    intro a b h
    simpa [Sink.mojit.injEq, Leaf.dim.injEq] using h
  have := filter_shakenTasksFrom cdir (mn ++ "_" ++ replaceFirstStar action ++ "_{checksum}")
      (fun k => .mojit i j (.dim k)) hinj 0 K v.shaken
  rw [Nat.zero_add] at this
  exact this

/-- The app-view tasks addressed to the client leaf. -/
theorem filter_appViewTasks_client (cdir action : String) (j : Nat) (v : ViewMeta) :
    (appViewTasks cdir j action v).filter (fun t => decide (t.sink = .app j .client))
    = if v.client.length ≠ 0 then
        [{ object := .clientRollup (cdir ++ "appclient_" ++ action ++ "_{checksum}.js") v.client,
           sink := .app j .client }]
      else [] := by
  rw [appViewTasks, List.filter_append]
  have hsh : (shakenTasksFrom cdir ("app_" ++ replaceFirstStar action ++ "_{checksum}")
      (fun k => .app j (.dim k)) 0 v.shaken).filter
      (fun t => decide (t.sink = .app j .client)) = [] := by
    rw [List.filter_eq_nil_iff]
    intro t ht
    rcases mem_shakenTasksFrom ht with ⟨K, files, _, _, hsink, _⟩
    simp [hsink]
  rw [hsh, List.append_nil]
  by_cases hc : v.client.length ≠ 0
  · rw [if_pos hc]; simp
  · rw [if_neg hc]; simp

/-- The app-view tasks addressed to dimension `K`. -/
theorem filter_appViewTasks_dim (cdir action : String) (j K : Nat) (v : ViewMeta) :
    (appViewTasks cdir j action v).filter (fun t => decide (t.sink = .app j (.dim K)))
    = match v.shaken[K]? with
      | none => []
      | some files =>
        if files.length ≠ 0 then
          (if (filterFiles files).js.length ≠ 0 then
            [{ object := .rollup (cdir ++ ("app_" ++ replaceFirstStar action ++ "_{checksum}") ++ ".js")
                  (filterFiles files).js, sink := .app j (.dim K) }]
          else [])
          ++
          (if (filterFiles files).css.length ≠ 0 then
            [{ object := .rollup (cdir ++ ("app_" ++ replaceFirstStar action ++ "_{checksum}") ++ ".css")
                  (filterFiles files).css, sink := .app j (.dim K) }]
          else [])
        else [] := by
  rw [appViewTasks, List.filter_append]
  have hcl : (if v.client.length ≠ 0 then
      [({ object := .clientRollup (cdir ++ "appclient_" ++ action ++ "_{checksum}.js") v.client,
          sink := .app j .client } : Task)]
    else ([] : List Task)).filter (fun t => decide (t.sink = .app j (.dim K))) = [] := by
    by_cases hc : v.client.length ≠ 0
    · rw [if_pos hc]; simp
    · rw [if_neg hc]; simp
  rw [hcl, List.nil_append]
  have hinj : ∀ a b : Nat, (Sink.app j (.dim a)) = (Sink.app j (.dim b)) → a = b := by
    intro a b h
    simpa [Sink.app.injEq, Leaf.dim.injEq] using h
  have := filter_shakenTasksFrom cdir ("app_" ++ replaceFirstStar action ++ "_{checksum}")
      (fun k => .app j (.dim k)) hinj 0 K v.shaken
  rw [Nat.zero_add] at this
  exact this

/-- Every mojit-view task's sink addresses exactly the view `(i, j)`. -/
theorem sink_shape_mojitViewTasks {cdir mn action : String} {i j : Nat} {v : ViewMeta}
    {t : Task} (ht : t ∈ mojitViewTasks cdir mn i j action v) :
    ∃ lf, t.sink = .mojit i j lf := by
  rcases mem_mojitViewTasks ht with ⟨rfl, _⟩ | ⟨K, files, _, _, hsink, _⟩
  · exact ⟨.client, rfl⟩
  · exact ⟨.dim K, hsink⟩

/-- Every app-view task's sink addresses exactly the view `j`. -/
theorem sink_shape_appViewTasks {cdir action : String} {j : Nat} {v : ViewMeta}
    {t : Task} (ht : t ∈ appViewTasks cdir j action v) :
    ∃ lf, t.sink = .app j lf := by
  rcases mem_appViewTasks ht with ⟨rfl, _⟩ | ⟨K, files, _, _, hsink, _⟩
  · exact ⟨.client, rfl⟩
  · exact ⟨.dim K, hsink⟩

/-- Every action-loop task's sink addresses mojit `i` at an action index `≥ j`. -/
theorem sink_shape_actionsTasksFrom {cdir mn : String} {i j : Nat}
    {as : List (String × ViewMeta)} {t : Task}
    (ht : t ∈ actionsTasksFrom cdir mn i j as) :
    ∃ J lf, j ≤ J ∧ t.sink = .mojit i J lf := by
  rcases mem_actionsTasksFrom ht with ⟨J, action, v, _, hview⟩
  rcases sink_shape_mojitViewTasks hview with ⟨lf, hsink⟩
  exact ⟨j + J, lf, Nat.le_add_right j J, hsink⟩

/-- The action-loop tasks addressed to action `j + J` come from the `J`-th view. -/
theorem filter_actionsTasksFrom (cdir mn : String) (i : Nat) (lf : Leaf) :
    ∀ (j J : Nat) (as : List (String × ViewMeta)),
      (actionsTasksFrom cdir mn i j as).filter
          (fun t => decide (t.sink = .mojit i (j + J) lf))
      = match as[J]? with
        | none => []
        | some av => (mojitViewTasks cdir mn i (j + J) av.1 av.2).filter
            (fun t => decide (t.sink = .mojit i (j + J) lf))
  | j, J, [] => by simp [actionsTasksFrom]
  | j, 0, av :: rest => by
    obtain ⟨action, v⟩ := av
    rw [actionsTasksFrom, List.filter_append]
    have htail : (actionsTasksFrom cdir mn i (j + 1) rest).filter
        (fun t => decide (t.sink = .mojit i (j + 0) lf)) = [] := by
      rw [List.filter_eq_nil_iff]
      intro t ht
      rcases sink_shape_actionsTasksFrom ht with ⟨J2, lf2, hle, hsink⟩
      simp only [decide_eq_true_eq, hsink, Sink.mojit.injEq]
      intro hEq
      omega
    rw [htail, List.append_nil]
    simp
  | j, J + 1, av :: rest => by
    obtain ⟨action, v⟩ := av
    rw [actionsTasksFrom, List.filter_append]
    have hhead : (mojitViewTasks cdir mn i j action v).filter
        (fun t => decide (t.sink = .mojit i (j + (J + 1)) lf)) = [] := by
      rw [List.filter_eq_nil_iff]
      intro t ht
      rcases sink_shape_mojitViewTasks ht with ⟨lf2, hsink⟩
      simp only [decide_eq_true_eq, hsink, Sink.mojit.injEq]
      intro hEq
      omega
    rw [hhead, List.nil_append]
    have harith : j + 1 + J = j + (J + 1) := by omega
    have := filter_actionsTasksFrom cdir mn i lf (j + 1) J rest
    rw [harith] at this
    rw [this]
    simp

/-- The mojit-loop tasks addressed to mojit `i + I` come from the `I`-th mojit. -/
theorem filter_mojitsTasksFrom (cdir : String) (J : Nat) (lf : Leaf) :
    ∀ (i I : Nat) (ms : List (String × List (String × ViewMeta))),
      (mojitsTasksFrom cdir i ms).filter
          (fun t => decide (t.sink = .mojit (i + I) J lf))
      = match ms[I]? with
        | none => []
        | some mo => (actionsTasksFrom cdir mo.1 (i + I) 0 mo.2).filter
            (fun t => decide (t.sink = .mojit (i + I) J lf))
  | i, I, [] => by simp [mojitsTasksFrom]
  | i, 0, mo :: rest => by
    obtain ⟨mn, acts⟩ := mo
    rw [mojitsTasksFrom, List.filter_append]
    have htail : (mojitsTasksFrom cdir (i + 1) rest).filter
        (fun t => decide (t.sink = .mojit (i + 0) J lf)) = [] := by
      rw [List.filter_eq_nil_iff]
      intro t ht
      rcases sink_shape_mojitsTasksFrom ht with ⟨I2, J2, lf2, hle, hsink⟩
      simp only [decide_eq_true_eq, hsink, Sink.mojit.injEq]
      intro hEq
      omega
    rw [htail, List.append_nil]
    simp
  | i, I + 1, mo :: rest => by
    obtain ⟨mn, acts⟩ := mo
    rw [mojitsTasksFrom, List.filter_append]
    have hhead : (actionsTasksFrom cdir mn i 0 acts).filter
        (fun t => decide (t.sink = .mojit (i + (I + 1)) J lf)) = [] := by
      rw [List.filter_eq_nil_iff]
      intro t ht
      rcases sink_shape_actionsTasksFrom ht with ⟨J2, lf2, hle, hsink⟩
      simp only [decide_eq_true_eq, hsink, Sink.mojit.injEq]
      intro hEq
      omega
    rw [hhead, List.nil_append]
    have harith : i + 1 + I = i + (I + 1) := by omega
    have := filter_mojitsTasksFrom cdir J lf (i + 1) I rest
    rw [harith] at this
    rw [this]
    simp

/-- The app-loop tasks addressed to app view `j + J` come from the `J`-th view. -/
theorem filter_appTasksFrom (cdir : String) (lf : Leaf) :
    ∀ (j J : Nat) (as : List (String × ViewMeta)),
      (appTasksFrom cdir j as).filter (fun t => decide (t.sink = .app (j + J) lf))
      = match as[J]? with
        | none => []
        | some av => (appViewTasks cdir (j + J) av.1 av.2).filter
            (fun t => decide (t.sink = .app (j + J) lf))
  | j, J, [] => by simp [appTasksFrom]
  | j, 0, av :: rest => by
    obtain ⟨action, v⟩ := av
    rw [appTasksFrom, List.filter_append]
    have htail : (appTasksFrom cdir (j + 1) rest).filter
        (fun t => decide (t.sink = .app (j + 0) lf)) = [] := by
      rw [List.filter_eq_nil_iff]
      intro t ht
      rcases sink_shape_appTasksFrom ht with ⟨J2, lf2, hle, hsink⟩
      simp only [decide_eq_true_eq, hsink, Sink.app.injEq]
      intro hEq
      omega
    rw [htail, List.append_nil]
    simp
  | j, J + 1, av :: rest => by
    obtain ⟨action, v⟩ := av
    rw [appTasksFrom, List.filter_append]
    have hhead : (appViewTasks cdir j action v).filter
        (fun t => decide (t.sink = .app (j + (J + 1)) lf)) = [] := by
      rw [List.filter_eq_nil_iff]
      intro t ht
      rcases sink_shape_appViewTasks ht with ⟨lf2, hsink⟩
      simp only [decide_eq_true_eq, hsink, Sink.app.injEq]
      intro hEq
      omega
    rw [hhead, List.nil_append]
    have harith : j + 1 + J = j + (J + 1) := by omega
    have := filter_appTasksFrom cdir lf (j + 1) J rest
    rw [harith] at this
    rw [this]
    simp

/-- Exactly one planned task addresses `core`: the unconditional core rollup,
whose input is the (possibly empty) original core list. -/
theorem plan_filter_core (e : Bool) (cdir : String) (md : Metadata) :
    (queueRollups e cdir md).1.filter (fun t => decide (t.sink = .core))
    = [{ object := .rollup (cdir ++ "core_{checksum}.js") md.core, sink := .core }] := by
  rw [queueRollups]
  show List.filter _ (_ ++ _ ++ _ ++ _) = _
  rw [List.filter_append, List.filter_append, List.filter_append]
  have himg : (if e then imageTasks md else []).filter
      (fun t => decide (t.sink = .core)) = [] := by
    cases e with
    | false => simp
    | true =>
      rw [if_pos rfl, List.filter_eq_nil_iff]
      intro t ht
      simp [sink_of_mem_imageTasks ht]
  have hmoj : (mojitsTasksFrom cdir 0 md.mojits).filter
      (fun t => decide (t.sink = .core)) = [] := by
    rw [List.filter_eq_nil_iff]
    intro t ht
    rcases sink_shape_mojitsTasksFrom ht with ⟨I, J, lf, _, hsink⟩
    simp [hsink]
  have happ : (appTasksFrom cdir 0 md.app).filter
      (fun t => decide (t.sink = .core)) = [] := by
    rw [List.filter_eq_nil_iff]
    intro t ht
    rcases sink_shape_appTasksFrom ht with ⟨J, lf, _, hsink⟩
    simp [hsink]
  rw [himg, hmoj, happ]
  simp

/-- The planned tasks addressing `images`: one image task per original image when
image deployment is enabled, none otherwise. -/
theorem plan_filter_images (e : Bool) (cdir : String) (md : Metadata) :
    (queueRollups e cdir md).1.filter (fun t => decide (t.sink = .images))
    = if e then imageTasks md else [] := by
  rw [queueRollups]
  show List.filter _ (_ ++ _ ++ _ ++ _) = _
  rw [List.filter_append, List.filter_append, List.filter_append]
  have himg : (if e then imageTasks md else []).filter
      (fun t => decide (t.sink = .images)) = if e then imageTasks md else [] := by
    cases e with
    | false => simp
    | true =>
      rw [List.filter_eq_self]
      intro t ht
      simp [sink_of_mem_imageTasks ht]
  have hmoj : (mojitsTasksFrom cdir 0 md.mojits).filter
      (fun t => decide (t.sink = .images)) = [] := by
    rw [List.filter_eq_nil_iff]
    intro t ht
    rcases sink_shape_mojitsTasksFrom ht with ⟨I, J, lf, _, hsink⟩
    simp [hsink]
  have happ : (appTasksFrom cdir 0 md.app).filter
      (fun t => decide (t.sink = .images)) = [] := by
    rw [List.filter_eq_nil_iff]
    intro t ht
    rcases sink_shape_appTasksFrom ht with ⟨J, lf, _, hsink⟩
    simp [hsink]
  rw [himg, hmoj, happ]
  simp

/-- The planned tasks addressing a mojit leaf come exactly from that mojit view. -/
theorem plan_filter_mojit (e : Bool) (cdir : String) (md : Metadata) (I J : Nat)
    (lf : Leaf) :
    (queueRollups e cdir md).1.filter (fun t => decide (t.sink = .mojit I J lf))
    = match md.mojits[I]? with
      | none => []
      | some mo =>
        match mo.2[J]? with
        | none => []
        | some av => (mojitViewTasks cdir mo.1 I J av.1 av.2).filter
            (fun t => decide (t.sink = .mojit I J lf))
  := by
  rw [queueRollups]
  show List.filter _ (_ ++ _ ++ _ ++ _) = _
  rw [List.filter_append, List.filter_append, List.filter_append]
  have himg : (if e then imageTasks md else []).filter
      (fun t => decide (t.sink = .mojit I J lf)) = [] := by
    cases e with
    | false => simp
    | true =>
      rw [if_pos rfl, List.filter_eq_nil_iff]
      intro t ht
      simp [sink_of_mem_imageTasks ht]
  have happ : (appTasksFrom cdir 0 md.app).filter
      (fun t => decide (t.sink = .mojit I J lf)) = [] := by
    rw [List.filter_eq_nil_iff]
    intro t ht
    rcases sink_shape_appTasksFrom ht with ⟨J2, lf2, _, hsink⟩
    simp [hsink]
  have hcoreT : List.filter (fun (t : Task) => decide (t.sink = Sink.mojit I J lf))
      [{ object := Builder.rollup (cdir ++ "core_{checksum}.js") md.core,
         sink := Sink.core }] = [] := by
    simp
  rw [himg, happ, hcoreT]
  have hmoj := filter_mojitsTasksFrom cdir J lf 0 I md.mojits
  rw [Nat.zero_add] at hmoj
  rw [hmoj]
  cases hI : md.mojits[I]? with
  | none => simp
  | some mo =>
    have hact := filter_actionsTasksFrom cdir mo.1 I lf 0 J mo.2
    rw [Nat.zero_add] at hact
    simp only [hact]
    cases hJ : mo.2[J]? with
    | none => simp
    | some av => simp

/-- The planned tasks addressing an app leaf come exactly from that app view. -/
theorem plan_filter_app (e : Bool) (cdir : String) (md : Metadata) (J : Nat)
    (lf : Leaf) :
    (queueRollups e cdir md).1.filter (fun t => decide (t.sink = .app J lf))
    = match md.app[J]? with
      | none => []
      | some av => (appViewTasks cdir J av.1 av.2).filter
          (fun t => decide (t.sink = .app J lf))
  := by
  rw [queueRollups]
  show List.filter _ (_ ++ _ ++ _ ++ _) = _
  rw [List.filter_append, List.filter_append, List.filter_append]
  have himg : (if e then imageTasks md else []).filter
      (fun t => decide (t.sink = .app J lf)) = [] := by
    cases e with
    | false => simp
    | true =>
      rw [if_pos rfl, List.filter_eq_nil_iff]
      intro t ht
      simp [sink_of_mem_imageTasks ht]
  have hmoj : (mojitsTasksFrom cdir 0 md.mojits).filter
      (fun t => decide (t.sink = .app J lf)) = [] := by
    rw [List.filter_eq_nil_iff]
    intro t ht
    rcases sink_shape_mojitsTasksFrom ht with ⟨I2, J2, lf2, _, hsink⟩
    simp [hsink]
  have hcoreT : List.filter (fun (t : Task) => decide (t.sink = Sink.app J lf))
      [{ object := Builder.rollup (cdir ++ "core_{checksum}.js") md.core,
         sink := Sink.core }] = [] := by
    simp
  rw [himg, hmoj, hcoreT]
  have happ := filter_appTasksFrom cdir lf 0 J md.app
  rw [Nat.zero_add] at happ
  rw [happ]
  cases hJ : md.app[J]? with
  | none => simp
  | some av => simp

/-- After a successful build run, `core` holds exactly the URL produced by the
unconditional core rollup — also when `core` was empty before the run. -/
theorem build_atSink_core (e : Bool) (cdir : String) (produce : Task → String)
    (md : Metadata) :
    (compileRollups e cdir produce md).atSink .core
    = some [produce { object := .rollup (cdir ++ "core_{checksum}.js") md.core,
                      sink := .core }] := by
  rw [compileRollups, runTasks_atSink,
    show (queueRollups e cdir md).2 = clearMeta e md from rfl,
    clearMeta_atSink_core, plan_filter_core]
  simp

/-- After a successful build run, `images` holds one produced URL per original
image when image deployment is enabled, and is untouched otherwise. -/
theorem build_atSink_images (e : Bool) (cdir : String) (produce : Task → String)
    (md : Metadata) :
    (compileRollups e cdir produce md).atSink .images
    = some (if e then (imageTasks md).map produce else md.images) := by
  rw [compileRollups, runTasks_atSink,
    show (queueRollups e cdir md).2 = clearMeta e md from rfl,
    clearMeta_atSink_images, plan_filter_images]
  cases e <;> simp

/-- After a successful build run, a mojit client leaf holds exactly one produced
URL when it was non-empty, and stays empty otherwise. -/
theorem build_atSink_mojit_client (e : Bool) (cdir : String) (produce : Task → String)
    (md : Metadata) (I J : Nat) (mo : String × List (String × ViewMeta))
    (av : String × ViewMeta) (hI : md.mojits[I]? = some mo) (hJ : mo.2[J]? = some av) :
    (compileRollups e cdir produce md).atSink (.mojit I J .client)
    = some (if av.2.client.length ≠ 0 then
        [produce { object := Builder.clientRollup (cdir ++ "client_" ++ mo.1 ++ "_{checksum}.js") av.2.client, sink := Sink.mojit I J Leaf.client }]
      else []) := by
  rw [compileRollups, runTasks_atSink,
    show (queueRollups e cdir md).2 = clearMeta e md from rfl,
    clearMeta_atSink_mojit, plan_filter_mojit]
  have hat : md.atSink (.mojit I J .client) = some av.2.client := by
    simp [Metadata.atSink, hI, hJ, ViewMeta.leafAt]
  rw [hat]
  simp only [hI, hJ]
  rw [filter_mojitViewTasks_client]
  by_cases hc : av.2.client.length ≠ 0
  · rw [if_pos hc, if_pos hc]; simp
  · rw [if_neg hc, if_neg hc]; simp

/-- After a successful build run, a mojit dimension leaf holds exactly one
produced URL per non-empty classified group (zero, one or two), and stays empty
when it was empty. -/
theorem build_atSink_mojit_dim (e : Bool) (cdir : String) (produce : Task → String)
    (md : Metadata) (I J K : Nat) (mo : String × List (String × ViewMeta))
    (av : String × ViewMeta) (files : List String)
    (hI : md.mojits[I]? = some mo) (hJ : mo.2[J]? = some av)
    (hK : av.2.shaken[K]? = some files) :
    (compileRollups e cdir produce md).atSink (.mojit I J (.dim K))
    = some (if files.length ≠ 0 then
        (if (filterFiles files).js.length ≠ 0 then
          [produce { object := Builder.rollup (cdir ++ (mo.1 ++ "_" ++ replaceFirstStar av.1 ++ "_{checksum}") ++ ".js") (filterFiles files).js, sink := Sink.mojit I J (Leaf.dim K) }]
        else [])
        ++
        (if (filterFiles files).css.length ≠ 0 then
          [produce { object := Builder.rollup (cdir ++ (mo.1 ++ "_" ++ replaceFirstStar av.1 ++ "_{checksum}") ++ ".css") (filterFiles files).css, sink := Sink.mojit I J (Leaf.dim K) }]
        else [])
      else []) := by
  rw [compileRollups, runTasks_atSink,
    show (queueRollups e cdir md).2 = clearMeta e md from rfl,
    clearMeta_atSink_mojit, plan_filter_mojit]
  have hat : md.atSink (.mojit I J (.dim K)) = some files := by
    simp [Metadata.atSink, hI, hJ, ViewMeta.leafAt, hK]
  rw [hat]
  simp only [hI, hJ]
  rw [filter_mojitViewTasks_dim]
  simp only [hK]
  by_cases hf : files.length ≠ 0
  · rw [if_pos hf, if_pos hf]
    by_cases hjs : (filterFiles files).js.length ≠ 0
    · by_cases hcss : (filterFiles files).css.length ≠ 0
      · simp [hjs, hcss]
      · simp [hjs, hcss]
    · by_cases hcss : (filterFiles files).css.length ≠ 0
      · simp [hjs, hcss]
      · simp [hjs, hcss]
  · rw [if_neg hf, if_neg hf]; simp

/-- After a successful build run, an app client leaf holds exactly one produced
URL when it was non-empty, and stays empty otherwise. -/
theorem build_atSink_app_client (e : Bool) (cdir : String) (produce : Task → String)
    (md : Metadata) (J : Nat) (av : String × ViewMeta)
    (hJ : md.app[J]? = some av) :
    (compileRollups e cdir produce md).atSink (.app J .client)
    = some (if av.2.client.length ≠ 0 then
        [produce { object := Builder.clientRollup (cdir ++ "appclient_" ++ av.1 ++ "_{checksum}.js") av.2.client, sink := Sink.app J Leaf.client }]
      else []) := by
  rw [compileRollups, runTasks_atSink,
    show (queueRollups e cdir md).2 = clearMeta e md from rfl,
    clearMeta_atSink_app, plan_filter_app]
  have hat : md.atSink (.app J .client) = some av.2.client := by
    simp [Metadata.atSink, hJ, ViewMeta.leafAt]
  rw [hat]
  simp only [hJ]
  rw [filter_appViewTasks_client]
  by_cases hc : av.2.client.length ≠ 0
  · rw [if_pos hc, if_pos hc]; simp
  · rw [if_neg hc, if_neg hc]; simp

/-- After a successful build run, an app dimension leaf holds exactly one
produced URL per non-empty classified group. -/
theorem build_atSink_app_dim (e : Bool) (cdir : String) (produce : Task → String)
    (md : Metadata) (J K : Nat) (av : String × ViewMeta) (files : List String)
    (hJ : md.app[J]? = some av) (hK : av.2.shaken[K]? = some files) :
    (compileRollups e cdir produce md).atSink (.app J (.dim K))
    = some (if files.length ≠ 0 then
        (if (filterFiles files).js.length ≠ 0 then
          [produce { object := Builder.rollup (cdir ++ ("app_" ++ replaceFirstStar av.1 ++ "_{checksum}") ++ ".js") (filterFiles files).js, sink := Sink.app J (Leaf.dim K) }]
        else [])
        ++
        (if (filterFiles files).css.length ≠ 0 then
          [produce { object := Builder.rollup (cdir ++ ("app_" ++ replaceFirstStar av.1 ++ "_{checksum}") ++ ".css") (filterFiles files).css, sink := Sink.app J (Leaf.dim K) }]
        else [])
      else []) := by
  rw [compileRollups, runTasks_atSink,
    show (queueRollups e cdir md).2 = clearMeta e md from rfl,
    clearMeta_atSink_app, plan_filter_app]
  have hat : md.atSink (.app J (.dim K)) = some files := by
    simp [Metadata.atSink, hJ, ViewMeta.leafAt, hK]
  rw [hat]
  simp only [hJ]
  rw [filter_appViewTasks_dim]
  simp only [hK]
  by_cases hf : files.length ≠ 0
  · rw [if_pos hf, if_pos hf]
    by_cases hjs : (filterFiles files).js.length ≠ 0
    · by_cases hcss : (filterFiles files).css.length ≠ 0
      · simp [hjs, hcss]
      · simp [hjs, hcss]
    · by_cases hcss : (filterFiles files).css.length ≠ 0
      · simp [hjs, hcss]
      · simp [hjs, hcss]
  · rw [if_neg hf, if_neg hf]; simp

theorem renameList_eq_map (getURL : String → String) (l : List String) :
    renameList getURL l = l.map getURL := by
  induction l with
  | nil => rfl
  | cons x xs ih => simp [renameList, ih]

/-- The dev-mode rewrite maps every leaf reachable through a non-images sink
elementwise through `getURL`, and leaves `images` untouched. -/
theorem rename_atSink (getURL : String → String) (md : Metadata) (s : Sink) :
    (rename getURL md).atSink s
      = if s = Sink.images then some md.images
        else (md.atSink s).map (fun xs => xs.map getURL) := by
  cases s with
  | images => simp [rename, Metadata.atSink]
  | core => simp [rename, Metadata.atSink, renameList_eq_map]
  | mojit i j lf =>
    rw [rename]
    show ((md.mojits.map fun mo => (mo.1, mo.2.map fun ac => (ac.1, renameView getURL ac.2)))[i]?.bind
        fun mo => mo.2[j]?.bind fun ac => ac.2.leafAt lf) = _
    rw [List.getElem?_map]
    cases hmo : md.mojits[i]? with
    | none => simp [Metadata.atSink, hmo]
    | some mo =>
      simp only [Metadata.atSink, hmo, Option.map_some', Option.some_bind]
      rw [List.getElem?_map]
      cases hac : mo.2[j]? with
      | none => simp
      | some ac =>
        simp only [Option.map_some', Option.some_bind]
        cases lf with
        | client => simp [renameView, ViewMeta.leafAt, renameList_eq_map]
        | dim k =>
          show (ac.2.shaken.map (renameList getURL))[k]? = _
          rw [List.getElem?_map]
          cases hk : ac.2.shaken[k]? with
          | none => simp [ViewMeta.leafAt, hk]
          | some fs => simp [ViewMeta.leafAt, hk, renameList_eq_map]
  | app j lf =>
    rw [rename]
    show ((md.app.map fun ac => (ac.1, renameView getURL ac.2))[j]?.bind
        fun ac => ac.2.leafAt lf) = _
    rw [List.getElem?_map]
    cases hac : md.app[j]? with
    | none => simp [Metadata.atSink, hac]
    | some ac =>
      simp only [Metadata.atSink, hac, Option.map_some', Option.some_bind]
      cases lf with
      | client => simp [renameView, ViewMeta.leafAt, renameList_eq_map]
      | dim k =>
        show (ac.2.shaken.map (renameList getURL))[k]? = _
        rw [List.getElem?_map]
        cases hk : ac.2.shaken[k]? with
        | none => simp [ViewMeta.leafAt, hk]
        | some fs => simp [ViewMeta.leafAt, hk, renameList_eq_map]

/-- After planning, every leaf is either exactly its original content or empty. -/
theorem plan_clears_all_or_nothing (e : Bool) (cdir : String) (md : Metadata) (s : Sink) :
    (queueRollups e cdir md).2.atSink s = md.atSink s
    ∨ (queueRollups e cdir md).2.atSink s = some [] := by
  rw [show (queueRollups e cdir md).2 = clearMeta e md from rfl]
  cases s with
  | images =>
    cases e with
    | false => left; rw [clearMeta_atSink_images]; simp [Metadata.atSink]
    | true => right; rw [clearMeta_atSink_images]; simp
  | core => right; exact clearMeta_atSink_core e md
  | mojit i j lf =>
    rw [clearMeta_atSink_mojit]
    cases h : md.atSink (.mojit i j lf) with
    | none => left; simp
    | some l => right; simp
  | app j lf =>
    rw [clearMeta_atSink_app]
    cases h : md.atSink (.app j lf) with
    | none => left; simp
    | some l => right; simp

/-- Every queued task's sink leaf is already truncated to empty when planning
finishes — i.e. before any task runs. -/
theorem plan_task_sink_cleared (e : Bool) (cdir : String) (md : Metadata) :
    ∀ t ∈ (queueRollups e cdir md).1, (queueRollups e cdir md).2.atSink t.sink = some [] := by
  intro t ht
  rw [show (queueRollups e cdir md).2 = clearMeta e md from rfl]
  have ht2 : t ∈ (if e then imageTasks md else [])
      ++ [{ object := Builder.rollup (cdir ++ "core_{checksum}.js") md.core, sink := Sink.core }]
      ++ mojitsTasksFrom cdir 0 md.mojits ++ appTasksFrom cdir 0 md.app := ht
  rcases List.mem_append.mp ht2 with h3 | happ
  · rcases List.mem_append.mp h3 with h4 | hmoj
    · rcases List.mem_append.mp h4 with himg | hcore
      · cases e with
        | false => simp at himg
        | true =>
          rw [if_pos rfl] at himg
          rw [sink_of_mem_imageTasks himg]
          simpa using clearMeta_atSink_images true md
      · simp only [List.mem_singleton] at hcore
        subst hcore
        exact clearMeta_atSink_core e md
    · rcases mem_mojitsTasksFrom hmoj with ⟨I, mn, acts, hI, hacts⟩
      rcases mem_actionsTasksFrom hacts with ⟨J, action, v, hJ, hview⟩
      rcases mem_mojitViewTasks hview with ⟨rfl, hcne⟩ | ⟨K, files, hK, _, hsink, _⟩
      · show (clearMeta e md).atSink (Sink.mojit (0 + I) (0 + J) Leaf.client) = some []
        simp only [Nat.zero_add]
        rw [clearMeta_atSink_mojit]
        have hat : md.atSink (Sink.mojit I J Leaf.client) = some v.client := by
          simp [Metadata.atSink, hI, hJ, ViewMeta.leafAt]
        rw [hat]
        rfl
      · rw [hsink]
        simp only [Nat.zero_add]
        rw [clearMeta_atSink_mojit]
        have hat : md.atSink (Sink.mojit I J (Leaf.dim K)) = some files := by
          simp [Metadata.atSink, hI, hJ, ViewMeta.leafAt, hK]
        rw [hat]
        rfl
  · rcases mem_appTasksFrom happ with ⟨J, action, v, hJ, hview⟩
    rcases mem_appViewTasks hview with ⟨rfl, hcne⟩ | ⟨K, files, hK, _, hsink, _⟩
    · show (clearMeta e md).atSink (Sink.app (0 + J) Leaf.client) = some []
      simp only [Nat.zero_add]
      rw [clearMeta_atSink_app]
      have hat : md.atSink (Sink.app J Leaf.client) = some v.client := by
        simp [Metadata.atSink, hJ, ViewMeta.leafAt]
      rw [hat]
      rfl
    · rw [hsink]
      simp only [Nat.zero_add]
      rw [clearMeta_atSink_app]
      have hat : md.atSink (Sink.app J (Leaf.dim K)) = some files := by
        simp [Metadata.atSink, hJ, ViewMeta.leafAt, hK]
      rw [hat]
      rfl

/-- A task's inputs are a snapshot derived from the original content of its
sink's leaf: the whole leaf for the core/client rollups, one of the two
classified groups of the leaf for a dimension rollup, one element of the leaf
for an image task. -/
def snapshotOf (md : Metadata) (t : Task) : Prop :=
  ∃ orig, md.atSink t.sink = some orig ∧
    (match t.object with
     | .image _ file => file ∈ orig
     | .rollup _ files =>
         files = orig ∨ files = (filterFiles orig).js ∨ files = (filterFiles orig).css
     | .clientRollup _ files => files = orig)

/-- Every queued task carries a snapshot of the original leaf it will replace. -/
theorem plan_snapshots (e : Bool) (cdir : String) (md : Metadata) :
    ∀ t ∈ (queueRollups e cdir md).1, snapshotOf md t := by
  intro t ht
  have ht2 : t ∈ (if e then imageTasks md else [])
      ++ [{ object := Builder.rollup (cdir ++ "core_{checksum}.js") md.core, sink := Sink.core }]
      ++ mojitsTasksFrom cdir 0 md.mojits ++ appTasksFrom cdir 0 md.app := ht
  rcases List.mem_append.mp ht2 with h3 | happ
  · rcases List.mem_append.mp h3 with h4 | hmoj
    · rcases List.mem_append.mp h4 with himg | hcore
      · cases e with
        | false => simp at himg
        | true =>
          rw [if_pos rfl, imageTasks] at himg
          rcases List.mem_map.mp himg with ⟨img, himem, rfl⟩
          exact ⟨md.images, rfl, himem⟩
      · simp only [List.mem_singleton] at hcore
        subst hcore
        exact ⟨md.core, rfl, Or.inl rfl⟩
    · rcases mem_mojitsTasksFrom hmoj with ⟨I, mn, acts, hI, hacts⟩
      rcases mem_actionsTasksFrom hacts with ⟨J, action, v, hJ, hview⟩
      rcases mem_mojitViewTasks hview with ⟨rfl, hcne⟩ | ⟨K, files, hK, _, hsink, hobj⟩
      · refine ⟨v.client, ?_, ?_⟩
        · show md.atSink (Sink.mojit (0 + I) (0 + J) Leaf.client) = some v.client
          simp [Metadata.atSink, Nat.zero_add, hI, hJ, ViewMeta.leafAt]
        · rfl
      · refine ⟨files, ?_, ?_⟩
        · rw [hsink]
          simp [Metadata.atSink, Nat.zero_add, hI, hJ, ViewMeta.leafAt, hK]
        · rcases hobj with ⟨hoeq, _⟩ | ⟨hoeq, _⟩ <;>
            simp [snapshotOf, hoeq]
  · rcases mem_appTasksFrom happ with ⟨J, action, v, hJ, hview⟩
    rcases mem_appViewTasks hview with ⟨rfl, hcne⟩ | ⟨K, files, hK, _, hsink, hobj⟩
    · refine ⟨v.client, ?_, ?_⟩
      · show md.atSink (Sink.app (0 + J) Leaf.client) = some v.client
        simp [Metadata.atSink, Nat.zero_add, hJ, ViewMeta.leafAt]
      · rfl
    · refine ⟨files, ?_, ?_⟩
      · rw [hsink]
        simp [Metadata.atSink, Nat.zero_add, hJ, ViewMeta.leafAt, hK]
      · rcases hobj with ⟨hoeq, _⟩ | ⟨hoeq, _⟩ <;>
          simp [snapshotOf, hoeq]

/-- At every point during a run (after any prefix of the queue has completed),
every leaf is either exactly its original content or made up purely of produced
URLs — a half-replaced leaf never exists. -/
theorem run_leaf_untouched_or_produced (e : Bool) (cdir : String)
    (produce : Task → String) (md : Metadata) (p rest : List Task)
    (hsplit : (queueRollups e cdir md).1 = p ++ rest) (s : Sink) (l : List String)
    (hl : (runTasks produce (queueRollups e cdir md).2 p).atSink s = some l) :
    md.atSink s = some l
    ∨ ∀ u ∈ l, ∃ t, t ∈ (queueRollups e cdir md).1 ∧ t.sink = s ∧ u = produce t := by
  rw [runTasks_atSink] at hl
  by_cases hcl : (queueRollups e cdir md).2.atSink s = some []
  · right
    rw [hcl] at hl
    simp only [Option.map_some', Option.some_inj, List.nil_append] at hl
    intro u hu
    rw [← hl] at hu
    rcases List.mem_map.mp hu with ⟨t, htf, hup⟩
    have htp : t ∈ p := (List.mem_filter.mp htf).1
    have hts : t.sink = s := by
      have := (List.mem_filter.mp htf).2
      simpa using this
    exact ⟨t, by rw [hsplit]; exact List.mem_append_left rest htp, hts, hup.symm⟩
  · left
    have hcl2 : (queueRollups e cdir md).2.atSink s = md.atSink s := by
      rcases plan_clears_all_or_nothing e cdir md s with h | h
      · exact h
      · exact absurd h hcl
    have hfil : p.filter (fun t => decide (t.sink = s)) = [] := by
      rw [List.filter_eq_nil_iff]
      intro t htp
      simp only [decide_eq_true_eq]
      intro hts
      have htplan : t ∈ (queueRollups e cdir md).1 := by
        rw [hsplit]; exact List.mem_append_left rest htp
      have hclr := plan_task_sink_cleared e cdir md t htplan
      rw [hts] at hclr
      exact hcl hclr
    rw [hfil] at hl
    rw [hcl2] at hl
    cases hmd : md.atSink s with
    | none => rw [hmd] at hl; simp at hl
    | some l0 =>
      rw [hmd] at hl
      simp only [Option.map_some', Option.some_inj, List.map_nil, List.append_nil] at hl
      rw [hl]

/-- Modelled from the spec: the Concurrency-Bounded Executor of §4.5 (realized
in the source by the external `async.queue` library, whose implementation is not
part of this repository).  A state holds the tasks not yet started (in submission
order), the in-flight tasks, the finished tasks (in completion order), the
metadata tree, and how many times the drain callback has fired. -/
structure QState where
  pending : List Task
  running : List Task
  completed : List Task
  md : Metadata
  drained : Nat
deriving Repr

/-- Modelled from the spec: one scheduler step of the executor.  `dispatch`
starts the next pending task when fewer than `maxC` tasks are in flight;
`complete` finishes any in-flight task, writes the produced URL through the
task's sink, and fires the drain callback exactly when the queue has just become
empty (no pending, no other in-flight task) — `async.queue` drain semantics. -/
inductive QStep (maxC : Nat) (produce : Task → String) : QState → QState → Prop
  | dispatch (s : QState) (t : Task) (rest : List Task)
      (hlen : s.running.length < maxC) (hp : s.pending = t :: rest) :
      QStep maxC produce s
        { pending := rest, running := s.running ++ [t], completed := s.completed,
          md := s.md, drained := s.drained }
  | complete (s : QState) (t : Task) (l m : List Task)
      (hr : s.running = l ++ t :: m) :
      QStep maxC produce s
        { pending := s.pending, running := l ++ m, completed := s.completed ++ [t],
          md := s.md.pushAt t.sink (produce t),
          drained := if s.pending = [] ∧ l ++ m = [] then s.drained + 1 else s.drained }

/-- Modelled from the spec: the executions of the executor are the reflexive
transitive closure of its steps. -/
def QReach (maxC : Nat) (produce : Task → String) : QState → QState → Prop :=
  Relation.ReflTransGen (QStep maxC produce)

/-- The state in which `_compileRollups` leaves the queue after pushing every
planned task synchronously, before any processing happens. -/
def initState (tasks : List Task) (md : Metadata) : QState :=
  { pending := tasks, running := [], completed := [], md := md, drained := 0 }

theorem count_perm_helper {α : Type} [DecidableEq α] (a : α) (p r c : List α) :
    ∀ x, (p ++ (r ++ [a]) ++ c).count x = ((a :: p) ++ r ++ c).count x := by
  intro x
  simp only [List.count_append, List.count_cons, List.count_singleton]
  by_cases h : a = x
  · simp [h]; omega
  · have h2 : ¬(x = a) := fun hx => h hx.symm
    simp [h, h2]

theorem count_complete_helper {α : Type} [DecidableEq α] (a : α) (p l m c : List α) :
    ∀ x, (p ++ (l ++ m) ++ (c ++ [a])).count x = (p ++ (l ++ a :: m) ++ c).count x := by
  intro x
  simp only [List.count_append, List.count_cons, List.count_singleton]
  by_cases h : a = x
  · simp [h]; omega
  · have h2 : ¬(x = a) := fun hx => h hx.symm
    simp [h, h2]

/-- Executor invariant: the pending, in-flight and completed tasks always
partition the submitted tasks; the metadata tree is the initial tree with the
completed tasks' URLs pushed in completion order; and the drain counter is 1
exactly in the states where the queue has emptied after doing work, 0 in every
other state. -/
theorem qreach_invariant (maxC : Nat) (produce : Task → String) (tasks : List Task)
    (md0 : Metadata) (s : QState)
    (h : QReach maxC produce (initState tasks md0) s) :
    (s.pending ++ s.running ++ s.completed).Perm tasks
    ∧ s.md = runTasks produce md0 s.completed
    ∧ s.drained = (if s.pending = [] ∧ s.running = [] ∧ s.completed ≠ [] then 1 else 0) := by
  induction h with
  | refl =>
    refine ⟨by simp [initState], by simp [initState, runTasks], ?_⟩
    simp [initState]
  | @tail b c hreach hstep ih =>
    rcases ih with ⟨hperm, hmd, hdr⟩
    cases hstep with
    | dispatch t rest hlen hp =>
      refine ⟨?_, by simpa using hmd, ?_⟩
      · show (rest ++ (b.running ++ [t]) ++ b.completed).Perm tasks
        have hmid : (rest ++ (b.running ++ [t]) ++ b.completed).Perm
            ((t :: rest) ++ b.running ++ b.completed) :=
          List.perm_iff_count.mpr (fun x => count_perm_helper t rest b.running b.completed x)
        have hmid2 : ((t :: rest) ++ b.running ++ b.completed).Perm tasks := by
          rw [← hp]
          exact hperm
        exact hmid.trans hmid2
      · show b.drained = _
        have hne : b.pending ≠ [] := by rw [hp]; simp
        rw [hdr, if_neg (by simp [hne]), if_neg (by simp)]
    | complete t l m hr =>
      have hmd2 : b.md.pushAt t.sink (produce t)
          = runTasks produce md0 (b.completed ++ [t]) := by
        rw [hmd]
        rw [show runTasks produce md0 (b.completed ++ [t])
          = ((b.completed ++ [t]).foldl (fun a b => a.pushAt b.sink (produce b))
              md0 : Metadata) from rfl]
        rw [List.foldl_append]
        rfl
      refine ⟨?_, hmd2, ?_⟩
      · show (b.pending ++ (l ++ m) ++ (b.completed ++ [t])).Perm tasks
        have hmid : (b.pending ++ (l ++ m) ++ (b.completed ++ [t])).Perm
            (b.pending ++ (l ++ t :: m) ++ b.completed) :=
          List.perm_iff_count.mpr (fun x => count_complete_helper t b.pending l m b.completed x)
        have hmid2 : (b.pending ++ (l ++ t :: m) ++ b.completed).Perm tasks := by
          rw [← hr]
          exact hperm
        exact hmid.trans hmid2
      · have hrne : b.running ≠ [] := by rw [hr]; simp
        have hdr0 : b.drained = 0 := by
          rw [hdr, if_neg (by simp [hrne])]
        by_cases hcond : b.pending = [] ∧ l ++ m = []
        · rw [if_pos hcond, hdr0]
          rw [if_pos ⟨hcond.1, hcond.2, by simp⟩]
        · rw [if_neg hcond, hdr0]
          rw [if_neg ?_]
          intro hc
          exact hcond ⟨hc.1, hc.2.1⟩

/-- Modelled from the spec: the executor state with fallible builds (§4.5 and
§7; the queue itself is the external `async` library, not in this repository).
Beyond `QState` it records the tasks whose build reported an error and the
exception that escaped the first failing handler (`throw err`), or `none` while
no build has failed. -/
structure EState where
  pending : List Task
  running : List Task
  completed : List Task
  failed : List Task
  md : Metadata
  drained : Nat
  thrown : Option String
deriving Repr

/-- Modelled from the spec: one scheduler step of the executor with fallible
builds.  `dispatch` starts the next pending task while fewer than `maxC` are in
flight and no handler has thrown — after the uncaught exception nothing further
is scheduled; `completeOk` finishes an in-flight build successfully, writes its
URL through its sink (in-flight siblings of a failure still land their writes,
§4.5/§7), and fires drain exactly when the queue has just emptied in a clean
run — a failing task never returns its queue slot, so drain never fires once a
build has thrown; `completeErr` ends an in-flight build with an error, which the
handler re-throws verbatim; the first thrown error is the one that escapes. -/
inductive EStep (maxC : Nat) (produce : Task → Except String String) :
    EState → EState → Prop
  | dispatch (s : EState) (t : Task) (rest : List Task)
      (hth : s.thrown = none) (hlen : s.running.length < maxC)
      (hp : s.pending = t :: rest) :
      EStep maxC produce s
        { pending := rest, running := s.running ++ [t], completed := s.completed,
          failed := s.failed, md := s.md, drained := s.drained, thrown := none }
  | completeOk (s : EState) (t : Task) (l m : List Task) (url : String)
      (hr : s.running = l ++ t :: m) (hok : produce t = .ok url) :
      EStep maxC produce s
        { pending := s.pending, running := l ++ m, completed := s.completed ++ [t],
          failed := s.failed, md := s.md.pushAt t.sink url,
          drained := if s.pending = [] ∧ l ++ m = [] ∧ s.thrown = none
            then s.drained + 1 else s.drained,
          thrown := s.thrown }
  | completeErr (s : EState) (t : Task) (l m : List Task) (err : String)
      (hr : s.running = l ++ t :: m) (herr : produce t = .error err) :
      EStep maxC produce s
        { pending := s.pending, running := l ++ m, completed := s.completed,
          failed := s.failed ++ [t], md := s.md, drained := s.drained,
          thrown := match s.thrown with | none => some err | some e0 => some e0 }

/-- Modelled from the spec: the executions of the fallible executor. -/
def EReach (maxC : Nat) (produce : Task → Except String String) :
    EState → EState → Prop :=
  Relation.ReflTransGen (EStep maxC produce)

/-- The queue state after `_compileRollups` has pushed every planned task
synchronously, before any processing happens. -/
def initE (tasks : List Task) (md : Metadata) : EState :=
  { pending := tasks, running := [], completed := [], failed := [], md := md,
    drained := 0, thrown := none }

/-- The metadata writes of a list of completed builds: each successful build
pushes its URL through its sink; a failed build writes nothing. -/
def runTasksOk (produce : Task → Except String String) (md : Metadata)
    (ts : List Task) : Metadata :=
  ts.foldl
    (fun m t =>
      match produce t with
      | .ok url => m.pushAt t.sink url
      | .error _ => m)
    md

theorem runTasksOk_append_ok (produce : Task → Except String String)
    (md0 : Metadata) (c : List Task) (t : Task) (url : String)
    (hok : produce t = .ok url) :
    runTasksOk produce md0 (c ++ [t]) = (runTasksOk produce md0 c).pushAt t.sink url := by
  rw [runTasksOk, runTasksOk, List.foldl_append]
  simp [hok]

theorem count_perm4_dispatch {α : Type} [DecidableEq α] (a : α) (p r c f : List α) :
    ∀ x, (p ++ (r ++ [a]) ++ c ++ f).count x = ((a :: p) ++ r ++ c ++ f).count x := by
  intro x
  simp only [List.count_append, List.count_cons, List.count_singleton]
  by_cases h : a = x
  · simp [h]; omega
  · have h2 : ¬(x = a) := fun hx => h hx.symm
    simp [h, h2]

theorem count_perm4_ok {α : Type} [DecidableEq α] (a : α) (p l m c f : List α) :
    ∀ x, (p ++ (l ++ m) ++ (c ++ [a]) ++ f).count x = (p ++ (l ++ a :: m) ++ c ++ f).count x := by
  intro x
  simp only [List.count_append, List.count_cons, List.count_singleton]
  by_cases h : a = x
  · simp [h]; omega
  · have h2 : ¬(x = a) := fun hx => h hx.symm
    simp [h, h2]

theorem count_perm4_err {α : Type} [DecidableEq α] (a : α) (p l m c f : List α) :
    ∀ x, (p ++ (l ++ m) ++ c ++ (f ++ [a])).count x = (p ++ (l ++ a :: m) ++ c ++ f).count x := by
  intro x
  simp only [List.count_append, List.count_cons, List.count_singleton]
  by_cases h : a = x
  · simp [h]; omega
  · have h2 : ¬(x = a) := fun hx => h hx.symm
    simp [h, h2]

/-- Invariant of the fallible executor, over every schedule: the pending,
in-flight, successfully completed and failed tasks always partition the
submitted tasks (so no build is ever invoked twice — no retry); the metadata
tree carries exactly the completed builds' writes; the escaped exception is
verbatim the error some failed build reported; and the drain counter is positive
only in clean terminal states — once a build has thrown, drain (which performs
the metadata write and the run-level callback) can never have fired and never
fires. -/
theorem ereach_invariant (maxC : Nat) (produce : Task → Except String String)
    (tasks : List Task) (md0 : Metadata) (s : EState)
    (h : EReach maxC produce (initE tasks md0) s) :
    (s.pending ++ s.running ++ s.completed ++ s.failed).Perm tasks
    ∧ s.md = runTasksOk produce md0 s.completed
    ∧ (∀ err, s.thrown = some err → ∃ t ∈ s.failed, produce t = .error err)
    ∧ (1 ≤ s.drained → s.pending = [] ∧ s.running = [] ∧ s.thrown = none) := by
  induction h with
  | refl =>
    refine ⟨by simp [initE], by simp [initE, runTasksOk], ?_, ?_⟩
    · intro err hth
      simp [initE] at hth
    · intro h1
      simp [initE] at h1
  | @tail b c hreach hstep ih =>
    rcases ih with ⟨hperm, hmd, hthr, hdr⟩
    cases hstep with
    | dispatch t rest hth hlen hp =>
      refine ⟨?_, by simpa using hmd, ?_, ?_⟩
      · show (rest ++ (b.running ++ [t]) ++ b.completed ++ b.failed).Perm tasks
        have hmid : (rest ++ (b.running ++ [t]) ++ b.completed ++ b.failed).Perm
            ((t :: rest) ++ b.running ++ b.completed ++ b.failed) :=
          List.perm_iff_count.mpr
            (fun x => count_perm4_dispatch t rest b.running b.completed b.failed x)
        have hmid2 : ((t :: rest) ++ b.running ++ b.completed ++ b.failed).Perm tasks := by
          rw [← hp]
          exact hperm
        exact hmid.trans hmid2
      · intro err hth2
        exact absurd hth2 (by simp)
      · intro h1
        rcases hdr h1 with ⟨hpend, _, _⟩
        rw [hp] at hpend
        exact absurd hpend (by simp)
    | completeOk t l m url hr hok =>
      refine ⟨?_, ?_, ?_, ?_⟩
      · show (b.pending ++ (l ++ m) ++ (b.completed ++ [t]) ++ b.failed).Perm tasks
        have hmid : (b.pending ++ (l ++ m) ++ (b.completed ++ [t]) ++ b.failed).Perm
            (b.pending ++ (l ++ t :: m) ++ b.completed ++ b.failed) :=
          List.perm_iff_count.mpr
            (fun x => count_perm4_ok t b.pending l m b.completed b.failed x)
        have hmid2 : (b.pending ++ (l ++ t :: m) ++ b.completed ++ b.failed).Perm tasks := by
          rw [← hr]
          exact hperm
        exact hmid.trans hmid2
      · show b.md.pushAt t.sink url = runTasksOk produce md0 (b.completed ++ [t])
        rw [runTasksOk_append_ok produce md0 b.completed t url hok, hmd]
      · intro err hth2
        exact hthr err hth2
      · intro h1
        by_cases hcond : b.pending = [] ∧ l ++ m = [] ∧ b.thrown = none
        · exact ⟨hcond.1, hcond.2.1, hcond.2.2⟩
        · rw [if_neg hcond] at h1
          rcases hdr h1 with ⟨_, hrun, _⟩
          rw [hr] at hrun
          exact absurd hrun (by simp)
    | completeErr t l m err0 hr herr =>
      refine ⟨?_, hmd, ?_, ?_⟩
      · show (b.pending ++ (l ++ m) ++ b.completed ++ (b.failed ++ [t])).Perm tasks
        have hmid : (b.pending ++ (l ++ m) ++ b.completed ++ (b.failed ++ [t])).Perm
            (b.pending ++ (l ++ t :: m) ++ b.completed ++ b.failed) :=
          List.perm_iff_count.mpr
            (fun x => count_perm4_err t b.pending l m b.completed b.failed x)
        have hmid2 : (b.pending ++ (l ++ t :: m) ++ b.completed ++ b.failed).Perm tasks := by
          rw [← hr]
          exact hperm
        exact hmid.trans hmid2
      · intro err hth2
        show ∃ t2 ∈ b.failed ++ [t], produce t2 = .error err
        cases hb : b.thrown with
        | none =>
          rw [show (match b.thrown with | none => some err0 | some e0 => some e0)
              = some err0 from by rw [hb]] at hth2
          have herr2 : err = err0 := (Option.some_inj.mp hth2).symm
          exact ⟨t, List.mem_append_right b.failed (List.mem_singleton.mpr rfl),
            by rw [herr2]; exact herr⟩
        | some e0 =>
          rw [show (match b.thrown with | none => some err0 | some e0 => some e0)
              = some e0 from by rw [hb]] at hth2
          have herr2 : err = e0 := (Option.some_inj.mp hth2).symm
          rcases hthr e0 hb with ⟨t2, ht2, hp2⟩
          exact ⟨t2, List.mem_append_left [t] ht2, by rw [herr2]; exact hp2⟩
      · intro h1
        rcases hdr h1 with ⟨_, hrun, _⟩
        rw [hr] at hrun
        exact absurd hrun (by simp)

/-- Once a handler has thrown, no step dispatches anything further and the
escaped error is preserved: only in-flight siblings can still finish. -/
theorem estep_after_thrown (maxC : Nat) (produce : Task → Except String String)
    (s s2 : EState) (err : String) (hth : s.thrown = some err)
    (h : EStep maxC produce s s2) :
    s2.pending = s.pending ∧ s2.thrown = some err := by
  cases h with
  | dispatch t rest hth2 hlen hp =>
    rw [hth] at hth2
    exact absurd hth2 (by simp)
  | completeOk t l m url hr hok => exact ⟨rfl, hth⟩
  | completeErr t l m err0 hr herr =>
    refine ⟨rfl, ?_⟩
    show (match s.thrown with | none => some err0 | some e0 => some e0) = some err
    rw [hth]

/-- The bundle name template held by a builder. -/
def builderName : Builder → String
  | .image n _ => n
  | .rollup n _ => n
  | .clientRollup n _ => n

/-- Concrete tree used to refute C1: empty core, one mojit view with one mixed
js+css dimension. -/
def c1md : Metadata :=
  { core := [],
    mojits := [("Foo", [("index", { shaken := [["a.js", "b.css"]], client := [] })])],
    app := [],
    images := [] }

/-- C1 counterexample: after a successful build-mode run on `c1md`, the `core`
leaf — empty before the run — contains one produced URL (the unconditional core
rollup), and the mixed js+css dimension leaf — non-empty before the run —
contains two produced URLs, not exactly one.  Both parts of the claim fail. -/
theorem c1_counterexample :
    c1md.core = []
    ∧ (compileRollups false "assets/compiled/" (fun _ => "URL") c1md).core = ["URL"]
    ∧ c1md.atSink (Sink.mojit 0 0 (Leaf.dim 0)) = some ["a.js", "b.css"]
    ∧ (compileRollups false "assets/compiled/" (fun _ => "URL") c1md).atSink
        (Sink.mojit 0 0 (Leaf.dim 0)) = some ["URL", "URL"] :=
  ⟨rfl, rfl, rfl, rfl⟩

/-- C1 (amended): after a successful build-mode run, the `core` leaf contains
exactly one produced URL even when it was empty before; the `images` leaf
contains one URL per original image when image deployment is enabled and is
untouched otherwise; every non-empty client leaf contains exactly one URL and
empty client leaves stay empty; every dimension leaf contains one URL per
non-empty classified content-type group (zero, one or two), so empty dimension
leaves stay empty but a non-empty leaf can end with zero or two URLs. -/
theorem c1_build_collapse (e : Bool) (cdir : String) (produce : Task → String)
    (md : Metadata) :
    ((compileRollups e cdir produce md).atSink Sink.core
      = some [produce { object := Builder.rollup (cdir ++ "core_{checksum}.js") md.core, sink := Sink.core }])
    ∧ ((compileRollups e cdir produce md).atSink Sink.images
      = some (if e then (imageTasks md).map produce else md.images))
    ∧ (∀ I J mo av, md.mojits[I]? = some mo → mo.2[J]? = some av →
        (compileRollups e cdir produce md).atSink (Sink.mojit I J Leaf.client)
        = some (if av.2.client.length ≠ 0 then
            [produce { object := Builder.clientRollup (cdir ++ "client_" ++ mo.1 ++ "_{checksum}.js") av.2.client, sink := Sink.mojit I J Leaf.client }]
          else []))
    ∧ (∀ I J K mo av files, md.mojits[I]? = some mo → mo.2[J]? = some av →
        av.2.shaken[K]? = some files →
        (compileRollups e cdir produce md).atSink (Sink.mojit I J (Leaf.dim K))
        = some (if files.length ≠ 0 then
            (if (filterFiles files).js.length ≠ 0 then
              [produce { object := Builder.rollup (cdir ++ (mo.1 ++ "_" ++ replaceFirstStar av.1 ++ "_{checksum}") ++ ".js") (filterFiles files).js, sink := Sink.mojit I J (Leaf.dim K) }]
            else [])
            ++
            (if (filterFiles files).css.length ≠ 0 then
              [produce { object := Builder.rollup (cdir ++ (mo.1 ++ "_" ++ replaceFirstStar av.1 ++ "_{checksum}") ++ ".css") (filterFiles files).css, sink := Sink.mojit I J (Leaf.dim K) }]
            else [])
          else []))
    ∧ (∀ J av, md.app[J]? = some av →
        (compileRollups e cdir produce md).atSink (Sink.app J Leaf.client)
        = some (if av.2.client.length ≠ 0 then
            [produce { object := Builder.clientRollup (cdir ++ "appclient_" ++ av.1 ++ "_{checksum}.js") av.2.client, sink := Sink.app J Leaf.client }]
          else []))
    ∧ (∀ J K av files, md.app[J]? = some av → av.2.shaken[K]? = some files →
        (compileRollups e cdir produce md).atSink (Sink.app J (Leaf.dim K))
        = some (if files.length ≠ 0 then
            (if (filterFiles files).js.length ≠ 0 then
              [produce { object := Builder.rollup (cdir ++ ("app_" ++ replaceFirstStar av.1 ++ "_{checksum}") ++ ".js") (filterFiles files).js, sink := Sink.app J (Leaf.dim K) }]
            else [])
            ++
            (if (filterFiles files).css.length ≠ 0 then
              [produce { object := Builder.rollup (cdir ++ ("app_" ++ replaceFirstStar av.1 ++ "_{checksum}") ++ ".css") (filterFiles files).css, sink := Sink.app J (Leaf.dim K) }]
            else [])
          else [])) :=
  ⟨build_atSink_core e cdir produce md,
   build_atSink_images e cdir produce md,
   fun I J mo av hI hJ => build_atSink_mojit_client e cdir produce md I J mo av hI hJ,
   fun I J K mo av files hI hJ hK =>
     build_atSink_mojit_dim e cdir produce md I J K mo av files hI hJ hK,
   fun J av hJ => build_atSink_app_client e cdir produce md J av hJ,
   fun J K av files hJ hK => build_atSink_app_dim e cdir produce md J K av files hJ hK⟩

/-- Concrete tree for the C1 witness: one mojit view with a non-empty client
list. -/
def c1wmd : Metadata :=
  { core := [],
    mojits := [("Foo", [("index", { shaken := [], client := ["x.js"] })])],
    app := [],
    images := [] }

theorem c1_build_collapse_witness :
    (compileRollups false "d/" (fun _ => "u") c1wmd).atSink Sink.core = some ["u"]
    ∧ (compileRollups false "d/" (fun _ => "u") c1wmd).atSink (Sink.mojit 0 0 Leaf.client)
      = some ["u"] := by
  have h := c1_build_collapse false "d/" (fun _ => "u") c1wmd
  constructor
  · rw [h.1]
  · have h2 := h.2.2.1 0 0 ("Foo", [("index", { shaken := [], client := ["x.js"] })])
      ("index", ({ shaken := [], client := ["x.js"] } : ViewMeta)) rfl rfl
    rw [h2]
    rfl

/-- C2 counterexample: with a failing builder, `_compileRollups` does not invoke
the run-level callback with the error — the error is re-thrown from the task
handler (`throw err`), the outcome is an escaped exception, and the metadata
file is not written. -/
theorem c2_counterexample :
    (compileRollupsRun false "assets/compiled/" (fun _ => Except.error "boom")
      { core := [], mojits := [], app := [], images := [] }).1 = Outcome.thrown "boom"
    ∧ (∀ e2, (compileRollupsRun false "assets/compiled/" (fun _ => Except.error "boom")
        { core := [], mojits := [], app := [], images := [] }).1 ≠ Outcome.callbackErr e2)
    ∧ (compileRollupsRun false "assets/compiled/" (fun _ => Except.error "boom")
        { core := [], mojits := [], app := [], images := [] }).2 = false := by
  refine ⟨rfl, ?_, rfl⟩
  intro e2
  rw [show (compileRollupsRun false "assets/compiled/" (fun _ => Except.error "boom")
      { core := [], mojits := [], app := [], images := [] }).1
    = Outcome.thrown "boom" from rfl]
  simp

/-- C2 (amended): over every schedule of the concurrent queue running a
build-mode plan, whenever an error has escaped it is verbatim the error some
failed build reported (no wrapping or reclassification); drain — the only point
that writes the metadata file and invokes the run-level callback — has never
fired and never fires in that run; the pending, in-flight, completed and failed
tasks always partition the plan, so no build is ever invoked twice (no retry);
the metadata carries exactly the completed builds' writes — siblings in flight
when the error surfaced still land theirs — and after the throw nothing further
is dispatched and the escaped error is preserved. -/
theorem c2_error_thrown_unchanged (maxC : Nat) (e : Bool) (cdir : String)
    (produce : Task → Except String String) (md : Metadata) (s : EState)
    (h : EReach maxC produce
      (initE (queueRollups e cdir md).1 (queueRollups e cdir md).2) s) :
    (∀ err, s.thrown = some err →
      (∃ t ∈ s.failed, produce t = .error err) ∧ s.drained = 0)
    ∧ (s.pending ++ s.running ++ s.completed ++ s.failed).Perm (queueRollups e cdir md).1
    ∧ s.md = runTasksOk produce (queueRollups e cdir md).2 s.completed
    ∧ (∀ s2 err, s.thrown = some err → EStep maxC produce s s2 →
        s2.pending = s.pending ∧ s2.thrown = some err) := by
  rcases ereach_invariant maxC produce (queueRollups e cdir md).1
    (queueRollups e cdir md).2 s h with ⟨hperm, hmd, hthr, hdr⟩
  refine ⟨?_, hperm, hmd, ?_⟩
  · intro err hth
    refine ⟨hthr err hth, ?_⟩
    by_cases h1 : 1 ≤ s.drained
    · rcases hdr h1 with ⟨_, _, hnone⟩
      rw [hth] at hnone
      exact absurd hnone (by simp)
    · omega
  · intro s2 err hth hstep
    exact estep_after_thrown maxC produce s s2 err hth hstep

/-- The metadata tree of the C2 witness: one mojit view with one JS dimension,
so the plan is the core rollup followed by one dimension rollup. -/
def c2wmd : Metadata :=
  { core := [],
    mojits := [("Foo", [("index", { shaken := [["a.js"]], client := [] })])],
    app := [],
    images := [] }

/-- The C2 witness builder results: the core rollup fails, every other build
succeeds. -/
def c2produce : Task → Except String String :=
  fun t => if t.sink = Sink.core then Except.error "boom" else Except.ok "u"

def c2tA : Task :=
  { object := Builder.rollup "d/core_{checksum}.js" [], sink := Sink.core }

def c2tB : Task :=
  { object := Builder.rollup "d/Foo_index_{checksum}.js" ["a.js"],
    sink := Sink.mojit 0 0 (Leaf.dim 0) }

def c2cleared : Metadata :=
  { core := [],
    mojits := [("Foo", [("index", { shaken := [[]], client := [] })])],
    app := [],
    images := [] }

def c2s1 : EState :=
  { pending := [c2tB], running := [c2tA], completed := [], failed := [],
    md := c2cleared, drained := 0, thrown := none }

def c2s2 : EState :=
  { pending := [], running := [c2tA, c2tB], completed := [], failed := [],
    md := c2cleared, drained := 0, thrown := none }

def c2s3 : EState :=
  { pending := [], running := [c2tB], completed := [], failed := [c2tA],
    md := c2cleared, drained := 0, thrown := some "boom" }

def c2mdW : Metadata :=
  { core := [],
    mojits := [("Foo", [("index", { shaken := [["u"]], client := [] })])],
    app := [],
    images := [] }

def c2efinal : EState :=
  { pending := [], running := [], completed := [c2tB], failed := [c2tA],
    md := c2mdW, drained := 0, thrown := some "boom" }

theorem c2_error_thrown_unchanged_witness :
    c2efinal.thrown = some "boom"
    ∧ (∃ t ∈ c2efinal.failed, c2produce t = Except.error "boom")
    ∧ c2efinal.drained = 0
    ∧ c2efinal.md.atSink (Sink.mojit 0 0 (Leaf.dim 0)) = some ["u"] := by
  have h1 : EStep 2 c2produce
      (initE (queueRollups false "d/" c2wmd).1 (queueRollups false "d/" c2wmd).2) c2s1 :=
    EStep.dispatch _ c2tA [c2tB] rfl (by decide) rfl
  have h2 : EStep 2 c2produce c2s1 c2s2 :=
    EStep.dispatch c2s1 c2tB [] rfl (by decide) rfl
  have h3 : EStep 2 c2produce c2s2 c2s3 :=
    EStep.completeErr c2s2 c2tA [] [c2tB] "boom" rfl rfl
  have h4 : EStep 2 c2produce c2s3 c2efinal :=
    EStep.completeOk c2s3 c2tB [] [] "u" rfl rfl
  have hreach : EReach 2 c2produce
      (initE (queueRollups false "d/" c2wmd).1 (queueRollups false "d/" c2wmd).2) c2efinal :=
    Relation.ReflTransGen.head h1 (Relation.ReflTransGen.head h2
      (Relation.ReflTransGen.head h3 (Relation.ReflTransGen.head h4
        Relation.ReflTransGen.refl)))
  have h := c2_error_thrown_unchanged 2 false "d/" c2produce c2wmd c2efinal hreach
  have h2main := h.1 "boom" rfl
  refine ⟨rfl, h2main.1, h2main.2, ?_⟩
  rw [h.2.2.1]
  rfl

/-- C3 counterexample: the dev-mode rewrite never visits `metadata.images`, so
with image deployment enabled an images entry is left as a local path and is not
the URL-resolved form of the previous occupant. -/
theorem c3_counterexample :
    (rename (fun f => "url:" ++ f)
      { core := [], mojits := [], app := [], images := ["i.png"] }).images = ["i.png"]
    ∧ ("i.png" : String) ≠ "url:" ++ "i.png" :=
  ⟨rfl, by decide⟩

/-- C3 (amended): a dev-mode run (reserved default task) invokes the callback
with the renamed tree; every leaf sequence other than `images` keeps its length
and is rewritten elementwise through `getURL` in order; the `images` leaf is
left untouched by `_rename`. -/
theorem c3_dev_rename (getURL : String → String) (e : Bool) (cdir : String)
    (produce : Task → Except String String) (md : Metadata) :
    runTask DEFAULT_TASK getURL e cdir produce md
      = (Outcome.callbackOk (rename getURL md), true)
    ∧ (∀ s l, s ≠ Sink.images → md.atSink s = some l →
        (rename getURL md).atSink s = some (l.map getURL))
    ∧ (rename getURL md).images = md.images := by
  refine ⟨?_, ?_, rfl⟩
  · rw [runTask, if_pos rfl]
  · intro s l hs hl
    rw [rename_atSink, if_neg hs, hl]
    rfl

theorem c3_dev_rename_witness :
    (rename (fun f => "url:" ++ f)
      { core := ["a.js"], mojits := [], app := [], images := [] }).atSink Sink.core
      = some ["url:a.js"] := by
  have h := (c3_dev_rename (fun f => "url:" ++ f) false "d/" (fun _ => Except.error "e")
    { core := ["a.js"], mojits := [], app := [], images := [] }).2.1
    Sink.core ["a.js"] (by decide) rfl
  simpa using h

/-- C4: with linting enabled, a discovered file set with no CSS files makes
`_lintFiles` fall through its `if (filtered.css.length > 0)` guard without ever
invoking the continuation: the run stalls instead of proceeding to the next
pipeline stage.  (A CSS set with no issues proceeds; any reported issue
aborts.) -/
theorem c4_lint_gate :
    lintFiles (fun _ => []) ["a.js"] = LintOutcome.stalled
    ∧ lintFiles (fun _ => []) ["a.js", "b.css"] = LintOutcome.proceeded
    ∧ lintFiles (fun f => if f = "b.css" then ["bad"] else []) ["a.js", "b.css"]
      = LintOutcome.aborted
    ∧ LintOutcome.stalled ≠ LintOutcome.proceeded :=
  ⟨rfl, rfl, rfl, by decide⟩

/-- C5 counterexample: the core bundle template the planner produces spells its
placeholder `{checksum}`, so it is not the string `<compiled_dir>core_{hash}.js`. -/
theorem c5_counterexample :
    ((queueRollups false COMPILED_DIR
        { core := [], mojits := [], app := [], images := [] }).1.filter
      (fun t => decide (t.sink = Sink.core))).map (fun t => builderName t.object)
      = ["assets/compiled/core_{checksum}.js"]
    ∧ ("assets/compiled/core_{checksum}.js" : String) ≠ "assets/compiled/core_{hash}.js" :=
  ⟨rfl, by decide⟩

/-- C5 (amended): for every build-mode plan, the unique core task's name template
is exactly the configured compiled directory followed by `core_{checksum}.js`,
with the content-hash placeholder (spelled `{checksum}`) unresolved at planning
time. -/
theorem c5_core_name_template (e : Bool) (cdir : String) (md : Metadata) :
    ((queueRollups e cdir md).1.filter (fun t => decide (t.sink = Sink.core))).map
      (fun t => builderName t.object)
      = [cdir ++ "core_{checksum}.js"] := by
  rw [plan_filter_core]
  rfl

/-- C6: the classifier is the pair of order-preserving filters selecting the
files whose mime type (inferred from the extension) is JS resp. CSS, dropping
everything else; in particular `["a.js","b.css","c.png"]` classifies to
`{js:["a.js"], css:["b.css"]}`.  (Purity is by construction: `filterFiles` is a
function of its argument.) -/
theorem c6_classifier :
    (∀ files, filterFiles files
      = { js := files.filter (fun f => decide (mimeLookup f = "application/javascript")),
          css := files.filter (fun f => decide (mimeLookup f = "text/css")) })
    ∧ filterFiles ["a.js", "b.css", "c.png"] = { js := ["a.js"], css := ["b.css"] } :=
  ⟨filterFiles_eq, rfl⟩

/-- Concrete tree used to refute C7: one mojit view whose client list holds a
single PNG — empty after classification, yet planned. -/
def c7md : Metadata :=
  { core := [],
    mojits := [("Foo", [("index", { shaken := [], client := ["c.png"] })])],
    app := [],
    images := [] }

/-- C7 counterexample: a client list whose file list is empty after
classification (a lone `.png`) still produces a client-rollup build task — the
code checks only the raw length of a client list and never classifies it. -/
theorem c7_counterexample :
    (filterFiles ["c.png"]).js = []
    ∧ (filterFiles ["c.png"]).css = []
    ∧ ((queueRollups false "assets/compiled/" c7md).1.filter
        (fun t => decide (t.sink = Sink.mojit 0 0 Leaf.client))).length = 1 :=
  ⟨rfl, rfl, rfl⟩

/-- C7 (amended): planning produces no task for a dimension list whose two
classified groups are both empty, and no task for an empty client list; each
such dimension list and client list is empty when planning finishes.  (A
non-empty client list produces a task even when classification would leave it
empty.) -/
theorem c7_skip_empty (e : Bool) (cdir : String) (md : Metadata) :
    (∀ I J K mo av files, md.mojits[I]? = some mo → mo.2[J]? = some av →
        av.2.shaken[K]? = some files →
        (filterFiles files).js = [] → (filterFiles files).css = [] →
        (queueRollups e cdir md).1.filter
          (fun t => decide (t.sink = Sink.mojit I J (Leaf.dim K))) = []
        ∧ (queueRollups e cdir md).2.atSink (Sink.mojit I J (Leaf.dim K)) = some [])
    ∧ (∀ I J mo av, md.mojits[I]? = some mo → mo.2[J]? = some av →
        av.2.client = [] →
        (queueRollups e cdir md).1.filter
          (fun t => decide (t.sink = Sink.mojit I J Leaf.client)) = []
        ∧ (queueRollups e cdir md).2.atSink (Sink.mojit I J Leaf.client) = some [])
    ∧ (∀ J K av files, md.app[J]? = some av → av.2.shaken[K]? = some files →
        (filterFiles files).js = [] → (filterFiles files).css = [] →
        (queueRollups e cdir md).1.filter
          (fun t => decide (t.sink = Sink.app J (Leaf.dim K))) = []
        ∧ (queueRollups e cdir md).2.atSink (Sink.app J (Leaf.dim K)) = some [])
    ∧ (∀ J av, md.app[J]? = some av → av.2.client = [] →
        (queueRollups e cdir md).1.filter
          (fun t => decide (t.sink = Sink.app J Leaf.client)) = []
        ∧ (queueRollups e cdir md).2.atSink (Sink.app J Leaf.client) = some []) := by
  refine ⟨?_, ?_, ?_, ?_⟩
  · intro I J K mo av files hI hJ hK hjs hcss
    constructor
    · rw [plan_filter_mojit]
      simp only [hI, hJ]
      rw [filter_mojitViewTasks_dim]
      simp only [hK]
      by_cases hf : files.length ≠ 0
      · rw [if_pos hf]
        simp [hjs, hcss]
      · rw [if_neg hf]
    · rw [show (queueRollups e cdir md).2 = clearMeta e md from rfl, clearMeta_atSink_mojit]
      have hat : md.atSink (Sink.mojit I J (Leaf.dim K)) = some files := by
        simp [Metadata.atSink, hI, hJ, ViewMeta.leafAt, hK]
      rw [hat]
      rfl
  · intro I J mo av hI hJ hc
    constructor
    · rw [plan_filter_mojit]
      simp only [hI, hJ]
      rw [filter_mojitViewTasks_client]
      simp [hc]
    · rw [show (queueRollups e cdir md).2 = clearMeta e md from rfl, clearMeta_atSink_mojit]
      have hat : md.atSink (Sink.mojit I J Leaf.client) = some av.2.client := by
        simp [Metadata.atSink, hI, hJ, ViewMeta.leafAt]
      rw [hat]
      rfl
  · intro J K av files hJ hK hjs hcss
    constructor
    · rw [plan_filter_app]
      simp only [hJ]
      rw [filter_appViewTasks_dim]
      simp only [hK]
      by_cases hf : files.length ≠ 0
      · rw [if_pos hf]
        simp [hjs, hcss]
      · rw [if_neg hf]
    · rw [show (queueRollups e cdir md).2 = clearMeta e md from rfl, clearMeta_atSink_app]
      have hat : md.atSink (Sink.app J (Leaf.dim K)) = some files := by
        simp [Metadata.atSink, hJ, ViewMeta.leafAt, hK]
      rw [hat]
      rfl
  · intro J av hJ hc
    constructor
    · rw [plan_filter_app]
      simp only [hJ]
      rw [filter_appViewTasks_client]
      simp [hc]
    · rw [show (queueRollups e cdir md).2 = clearMeta e md from rfl, clearMeta_atSink_app]
      have hat : md.atSink (Sink.app J Leaf.client) = some av.2.client := by
        simp [Metadata.atSink, hJ, ViewMeta.leafAt]
      rw [hat]
      rfl

/-- Concrete tree for the C7 witness: one mojit view with a PNG-only dimension. -/
def c7wmd : Metadata :=
  { core := [],
    mojits := [("Foo", [("index", { shaken := [["c.png"]], client := [] })])],
    app := [],
    images := [] }

theorem c7_skip_empty_witness :
    (queueRollups false "d/" c7wmd).1.filter
      (fun t => decide (t.sink = Sink.mojit 0 0 (Leaf.dim 0))) = []
    ∧ (queueRollups false "d/" c7wmd).2.atSink (Sink.mojit 0 0 (Leaf.dim 0)) = some [] :=
  (c7_skip_empty false "d/" c7wmd).1 0 0 0
    ("Foo", [("index", { shaken := [["c.png"]], client := [] })])
    ("index", { shaken := [["c.png"]], client := [] }) ["c.png"] rfl rfl rfl rfl rfl

/-- C8: in every execution of the bounded executor, once the queue is empty
(no pending, no in-flight task) after a non-empty submission, the drain counter
is exactly 1, the completed tasks are a permutation of the submitted tasks, and
the metadata holds every completed task's URL pushed through its sink; moreover
any state in which the drain callback has fired at all has no pending and no
in-flight task and has completed every submitted task — so drain fires exactly
once, only after every submitted task has completed and written its sink. -/
theorem c8_drain_exactly_once (maxC : Nat) (produce : Task → String)
    (tasks : List Task) (md0 : Metadata) (s : QState)
    (h : QReach maxC produce (initState tasks md0) s) :
    (s.pending = [] → s.running = [] → tasks ≠ [] →
      s.drained = 1 ∧ s.completed.Perm tasks ∧ s.md = runTasks produce md0 s.completed)
    ∧ (1 ≤ s.drained → s.pending = [] ∧ s.running = [] ∧ s.completed.Perm tasks) := by
  rcases qreach_invariant maxC produce tasks md0 s h with ⟨hperm, hmd, hdr⟩
  constructor
  · intro hp hr hne
    have hcomp : s.completed.Perm tasks := by
      rw [hp, hr] at hperm
      simpa using hperm
    have hcne : s.completed ≠ [] := by
      intro hc
      rw [hc] at hcomp
      exact hne (List.nil_perm.mp hcomp)
    refine ⟨?_, hcomp, hmd⟩
    rw [hdr, if_pos ⟨hp, hr, hcne⟩]
  · intro h1
    by_cases hcond : s.pending = [] ∧ s.running = [] ∧ s.completed ≠ []
    · refine ⟨hcond.1, hcond.2.1, ?_⟩
      rw [hcond.1, hcond.2.1] at hperm
      simpa using hperm
    · rw [hdr, if_neg hcond] at h1
      omega

/-- The five tasks of the C8 witness schedule. -/
def c8t1 : Task := { object := Builder.rollup "b1" [], sink := Sink.core }

def c8t2 : Task := { object := Builder.rollup "b2" [], sink := Sink.core }

def c8t3 : Task := { object := Builder.rollup "b3" [], sink := Sink.core }

def c8t4 : Task := { object := Builder.rollup "b4" [], sink := Sink.core }

def c8t5 : Task := { object := Builder.rollup "b5" [], sink := Sink.core }

def c8tasks : List Task := [c8t1, c8t2, c8t3, c8t4, c8t5]

def c8md0 : Metadata := { core := [], mojits := [], app := [], images := [] }

def c8produce : Task → String := fun _ => "u"

def c8s1 : QState :=
  { pending := [c8t2, c8t3, c8t4, c8t5], running := [c8t1], completed := [],
    md := c8md0, drained := 0 }

def c8s2 : QState :=
  { pending := [c8t2, c8t3, c8t4, c8t5], running := [], completed := [c8t1],
    md := { core := ["u"], mojits := [], app := [], images := [] }, drained := 0 }

def c8s3 : QState :=
  { pending := [c8t3, c8t4, c8t5], running := [c8t2], completed := [c8t1],
    md := { core := ["u"], mojits := [], app := [], images := [] }, drained := 0 }

def c8s4 : QState :=
  { pending := [c8t3, c8t4, c8t5], running := [], completed := [c8t1, c8t2],
    md := { core := ["u", "u"], mojits := [], app := [], images := [] }, drained := 0 }

def c8s5 : QState :=
  { pending := [c8t4, c8t5], running := [c8t3], completed := [c8t1, c8t2],
    md := { core := ["u", "u"], mojits := [], app := [], images := [] }, drained := 0 }

def c8s6 : QState :=
  { pending := [c8t4, c8t5], running := [], completed := [c8t1, c8t2, c8t3],
    md := { core := ["u", "u", "u"], mojits := [], app := [], images := [] }, drained := 0 }

def c8s7 : QState :=
  { pending := [c8t5], running := [c8t4], completed := [c8t1, c8t2, c8t3],
    md := { core := ["u", "u", "u"], mojits := [], app := [], images := [] }, drained := 0 }

def c8s8 : QState :=
  { pending := [c8t5], running := [], completed := [c8t1, c8t2, c8t3, c8t4],
    md := { core := ["u", "u", "u", "u"], mojits := [], app := [], images := [] },
    drained := 0 }

def c8s9 : QState :=
  { pending := [], running := [c8t5], completed := [c8t1, c8t2, c8t3, c8t4],
    md := { core := ["u", "u", "u", "u"], mojits := [], app := [], images := [] },
    drained := 0 }

def c8final : QState :=
  { pending := [], running := [], completed := [c8t1, c8t2, c8t3, c8t4, c8t5],
    md := { core := ["u", "u", "u", "u", "u"], mojits := [], app := [], images := [] },
    drained := 1 }

theorem c8_drain_exactly_once_witness :
    c8final.drained = 1 ∧ c8final.completed.Perm c8tasks
    ∧ c8final.md.core = ["u", "u", "u", "u", "u"] := by
  have h1 : QStep 2 c8produce (initState c8tasks c8md0) c8s1 :=
    QStep.dispatch (initState c8tasks c8md0) c8t1 [c8t2, c8t3, c8t4, c8t5] (by decide) rfl
  have h2 : QStep 2 c8produce c8s1 c8s2 := QStep.complete c8s1 c8t1 [] [] rfl
  have h3 : QStep 2 c8produce c8s2 c8s3 :=
    QStep.dispatch c8s2 c8t2 [c8t3, c8t4, c8t5] (by decide) rfl
  have h4 : QStep 2 c8produce c8s3 c8s4 := QStep.complete c8s3 c8t2 [] [] rfl
  have h5 : QStep 2 c8produce c8s4 c8s5 :=
    QStep.dispatch c8s4 c8t3 [c8t4, c8t5] (by decide) rfl
  have h6 : QStep 2 c8produce c8s5 c8s6 := QStep.complete c8s5 c8t3 [] [] rfl
  have h7 : QStep 2 c8produce c8s6 c8s7 :=
    QStep.dispatch c8s6 c8t4 [c8t5] (by decide) rfl
  have h8 : QStep 2 c8produce c8s7 c8s8 := QStep.complete c8s7 c8t4 [] [] rfl
  have h9 : QStep 2 c8produce c8s8 c8s9 := QStep.dispatch c8s8 c8t5 [] (by decide) rfl
  have h10 : QStep 2 c8produce c8s9 c8final := QStep.complete c8s9 c8t5 [] [] rfl
  have hreach : QReach 2 c8produce (initState c8tasks c8md0) c8final :=
    Relation.ReflTransGen.head h1 (Relation.ReflTransGen.head h2
      (Relation.ReflTransGen.head h3 (Relation.ReflTransGen.head h4
        (Relation.ReflTransGen.head h5 (Relation.ReflTransGen.head h6
          (Relation.ReflTransGen.head h7 (Relation.ReflTransGen.head h8
            (Relation.ReflTransGen.head h9 (Relation.ReflTransGen.head h10
              Relation.ReflTransGen.refl)))))))))
  have h := (c8_drain_exactly_once 2 c8produce c8tasks c8md0 c8final hreach).1 rfl rfl
    (by decide)
  exact ⟨h.1, h.2.1, rfl⟩

/-- C9: the planner snapshots and truncates before any task runs: after planning
every leaf is either exactly its original content or empty; every queued task's
sink leaf is already empty; every queued task's inputs are a snapshot derived
from the original leaf (the whole leaf for core/client rollups, a classified
group of it for dimension rollups, one of its elements for image tasks); and at
every point during the run — after any prefix of the queue — every leaf is
either exactly its original content or consists purely of produced URLs, so a
partially-replaced leaf never exists. -/
theorem c9_snapshot_truncate (e : Bool) (cdir : String) (produce : Task → String)
    (md : Metadata) :
    (∀ s, (queueRollups e cdir md).2.atSink s = md.atSink s
        ∨ (queueRollups e cdir md).2.atSink s = some [])
    ∧ (∀ t ∈ (queueRollups e cdir md).1, (queueRollups e cdir md).2.atSink t.sink = some [])
    ∧ (∀ t ∈ (queueRollups e cdir md).1, snapshotOf md t)
    ∧ (∀ p rest, (queueRollups e cdir md).1 = p ++ rest →
        ∀ s l, (runTasks produce (queueRollups e cdir md).2 p).atSink s = some l →
          md.atSink s = some l
          ∨ ∀ u ∈ l, ∃ t, t ∈ (queueRollups e cdir md).1 ∧ t.sink = s ∧ u = produce t) :=
  ⟨plan_clears_all_or_nothing e cdir md,
   plan_task_sink_cleared e cdir md,
   plan_snapshots e cdir md,
   fun p rest hsplit s l hl =>
     run_leaf_untouched_or_produced e cdir produce md p rest hsplit s l hl⟩

theorem c9_snapshot_truncate_witness :
    (queueRollups false "d/" { core := ["a.js"], mojits := [], app := [], images := [] }).2.atSink
      Sink.core = some [] :=
  (c9_snapshot_truncate false "d/" (fun _ => "u")
      { core := ["a.js"], mojits := [], app := [], images := [] }).2.1
    { object := Builder.rollup ("d/" ++ "core_{checksum}.js") ["a.js"], sink := Sink.core }
    (by decide)

/-- C10: the options object `_compileRollups` builds for every backend `build`
call carries no truthy `bundleViews` flag (the key is absent, hence falsy), so
the client-rollup concat callback replaces every HTML input with the empty
string — the client-registration-snippet branch is unreachable from the
orchestrator — while non-HTML inputs pass through unchanged. -/
theorem c10_bundleviews_unreachable (task : String) (minify : Bool)
    (strip : Option String) :
    (buildItemOptions task minify strip).bundleViews = false
    ∧ (∀ snippet filename content, mimeLookup filename = "text/html" →
        clientConcatItem snippet (buildItemOptions task minify strip).bundleViews
          filename content = "")
    ∧ (∀ snippet filename content, mimeLookup filename ≠ "text/html" →
        clientConcatItem snippet (buildItemOptions task minify strip).bundleViews
          filename content = content) := by
  refine ⟨rfl, ?_, ?_⟩
  · intro snippet filename content hh
    simp [clientConcatItem, buildItemOptions, hh]
  · intro snippet filename content hh
    simp [clientConcatItem, buildItemOptions, hh]

theorem c10_bundleviews_unreachable_witness :
    clientConcatItem (fun _ _ => "SNIPPET") (buildItemOptions "write" true none).bundleViews
      "mojits/Foo/views/index.mu.html" "<b>tpl</b>" = "" :=
  (c10_bundleviews_unreachable "write" true none).2.1 (fun _ _ => "SNIPPET")
    "mojits/Foo/views/index.mu.html" "<b>tpl</b>" (by decide)

end Shaker
